import Mathlib

/-!
Verification of the slotted-page B+tree engine of `mmdb`.

The shallow embedding below follows `src/data_page.rs` (the live slotted
page engine: `DataNode`, `DataPage`, `put`, `split`, `get`,
`write_new_page`), `src/constants.rs` (sizes, flags, `DBError`),
`src/buf.rs` (bounds-checked little-endian reads) and `src/page.rs`
(the `Page` frame and the branch `Key` ordering).

Modelling conventions:
* Machine integers (`u8`, `u16`, `u64`, `usize`) are `Nat` with explicit
  `% 2^w` where the source truncates.  The host is 64-bit, so
  `USIZE_N = 8` as in `constants.rs`.
* Byte buffers (`&[u8]`, `[u8; N]`, `Vec<u8>`) are `List Nat`.
* A Rust panic (`unwrap`, `expect`, slice-bound or arithmetic-overflow
  panic) is modelled as `Option.none`; fallible code returns `Option`.
* Rust loops that the source bounds by a decreasing span are given
  explicit fuel equal to that span, so every definition is a computable
  structural recursion.
-/

abbrev Bytes := List Nat

/-- `constants.rs`: `PAGE_SIZE`. -/
def PAGE_SIZE : Nat := 4096

/-- `constants.rs`: `PAGE_HEADER_SIZE`. -/
def PAGE_HEADER_SIZE : Nat := 16

/-- `constants.rs`: `PAGE_BUF_SIZE = PAGE_SIZE - PAGE_HEADER_SIZE = 4080`. -/
def PAGE_BUF_SIZE : Nat := PAGE_SIZE - PAGE_HEADER_SIZE

/-- `constants.rs`: `USIZE_N = size_of::<usize>()`; the host is 64-bit. -/
def USIZE_N : Nat := 8

/-- `constants.rs`: `U16_N = 2`. -/
def U16_N : Nat := 2

/-- Value of a little-endian byte list (`u16::from_le_bytes`, `u64::from_le_bytes`). -/
def leVal (bs : Bytes) : Nat := bs.foldr (fun b acc => b + 256 * acc) 0

/-- `u16::to_le_bytes`. -/
def u16le (v : Nat) : Bytes := [v % 256, v / 256 % 256]

/-- `u64::to_le_bytes` (also `usize::to_le_bytes` on the 64-bit host). -/
def u64le (v : Nat) : Bytes :=
  [v % 256, v / 256 % 256, v / 256 ^ 2 % 256, v / 256 ^ 3 % 256,
   v / 256 ^ 4 % 256, v / 256 ^ 5 % 256, v / 256 ^ 6 % 256, v / 256 ^ 7 % 256]

/-- `buf.rs`: `read_n_bytes(offset, n) = self.get(offset..offset+n)`:
`none` when the range leaves the region. -/
def readNBytes (buf : Bytes) (off n : Nat) : Option Bytes :=
  if off + n ≤ buf.length then some ((buf.drop off).take n) else none

/-- `buf.rs`: `read_u16_le`. -/
def readU16 (buf : Bytes) (off : Nat) : Option Nat :=
  (readNBytes buf off 2).map leVal

/-- `buf.rs`: `read_u64_le`, and `read_usize_le` with `USIZE_N = 8`. -/
def readU64 (buf : Bytes) (off : Nat) : Option Nat :=
  (readNBytes buf off 8).map leVal

@[simp] theorem u16le_length (v : Nat) : (u16le v).length = 2 := rfl

@[simp] theorem u64le_length (v : Nat) : (u64le v).length = 8 := rfl

theorem leVal_u16le (v : Nat) (h : v < 2 ^ 16) : leVal (u16le v) = v := by
  simp only [leVal, u16le, List.foldr]
  omega

theorem leVal_u64le (v : Nat) (h : v < 2 ^ 64) : leVal (u64le v) = v := by
  simp only [leVal, u64le, List.foldr]
  omega

theorem readNBytes_length (buf : Bytes) (off n : Nat) (bs : Bytes)
    (h : readNBytes buf off n = some bs) : bs.length = n ∧ off + n ≤ buf.length := by
  unfold readNBytes at h
  split at h
  · next hle =>
    cases h
    constructor
    · simp [List.length_take, List.length_drop]
      omega
    · exact hle
  · cases h

theorem readNBytes_of_pointwise (buf bs : Bytes) (off n : Nat)
    (hlen : off + n ≤ buf.length) (hbs : bs.length = n)
    (hpt : ∀ j, j < n → buf.getD (off + j) 0 = bs.getD j 0) :
    readNBytes buf off n = some bs := by
  unfold readNBytes
  rw [if_pos hlen]
  congr 1
  apply List.ext_getElem
  · simp [List.length_take, List.length_drop]
    omega
  · intro i h1 h2
    have hi : i < n := by
      simp [List.length_take, List.length_drop] at h1
      omega
    have h3 : off + i < buf.length := by omega
    have := hpt i hi
    rw [List.getD_eq_getElem buf 0 h3, List.getD_eq_getElem bs 0 (by omega)] at this
    rw [List.getElem_take, List.getElem_drop]
    exact this

/-! ## Byte-lexicographic ordering (`<[u8] as Ord>::cmp`) -/

/-- Rust `<[u8] as Ord>::cmp`: lexicographic over bytes, a strict
common-prefix list compares less than the longer one. -/
def cmpBytes : Bytes → Bytes → Ordering
  | [], [] => .eq
  | [], _ :: _ => .lt
  | _ :: _, [] => .gt
  | a :: as, b :: bs =>
    match compare a b with
    | .lt => .lt
    | .gt => .gt
    | .eq => cmpBytes as bs

theorem cmpBytes_eq_iff : ∀ a b : Bytes, cmpBytes a b = .eq ↔ a = b := by
  intro a
  induction a with
  | nil => intro b; cases b <;> simp [cmpBytes]
  | cons x xs ih =>
    intro b
    cases b with
    | nil => simp [cmpBytes]
    | cons y ys =>
      simp only [cmpBytes]
      rcases h : compare x y with _ | _ | _
      · simp only []
        constructor
        · intro h'; cases h'
        · intro h'
          have : x = y := by injection h'
          rw [Nat.compare_eq_lt] at h; omega
      · have hxy : x = y := by rwa [Nat.compare_eq_eq] at h
        subst hxy
        simp [ih ys]
      · constructor
        · intro h'; cases h'
        · intro h'
          have : x = y := by injection h'
          rw [Nat.compare_eq_gt] at h; omega

theorem cmpBytes_refl (a : Bytes) : cmpBytes a a = .eq := (cmpBytes_eq_iff a a).2 rfl

theorem cmpBytes_swap_lt : ∀ a b : Bytes, cmpBytes a b = .lt ↔ cmpBytes b a = .gt := by
  intro a
  induction a with
  | nil => intro b; cases b <;> simp [cmpBytes]
  | cons x xs ih =>
    intro b
    cases b with
    | nil => simp [cmpBytes]
    | cons y ys =>
      simp only [cmpBytes]
      rcases h : compare x y with _ | _ | _
      · rw [Nat.compare_eq_lt] at h
        have h' : compare y x = .gt := by rw [Nat.compare_eq_gt]; omega
        simp [h']
      · rw [Nat.compare_eq_eq] at h
        subst h
        have h' : compare x x = .eq := by rw [Nat.compare_eq_eq]
        simp [h', ih ys]
      · rw [Nat.compare_eq_gt] at h
        have h' : compare y x = .lt := by rw [Nat.compare_eq_lt]; omega
        simp [h']

theorem cmpBytes_trans_lt :
    ∀ a b c : Bytes, cmpBytes a b = .lt → cmpBytes b c = .lt → cmpBytes a c = .lt := by
  intro a
  induction a with
  | nil =>
    intro b c hab hbc
    cases c with
    | nil =>
      cases b with
      | nil => exact hab
      | cons y ys => simp [cmpBytes] at hbc
    | cons z zs => simp [cmpBytes]
  | cons x xs ih =>
    intro b c hab hbc
    cases b with
    | nil => simp [cmpBytes] at hab
    | cons y ys =>
      cases c with
      | nil => simp [cmpBytes] at hbc
      | cons z zs =>
        simp only [cmpBytes] at hab hbc ⊢
        rcases hxy : compare x y with _ | _ | _ <;> rw [hxy] at hab <;> simp at hab <;>
          rcases hyz : compare y z with _ | _ | _ <;> rw [hyz] at hbc <;> simp at hbc
        · -- x < y, y < z
          rw [Nat.compare_eq_lt] at hxy hyz
          have : compare x z = .lt := by rw [Nat.compare_eq_lt]; omega
          simp [this]
        · -- x < y, y = z
          rw [Nat.compare_eq_lt] at hxy
          rw [Nat.compare_eq_eq] at hyz
          have : compare x z = .lt := by rw [Nat.compare_eq_lt]; omega
          simp [this]
        · -- x = y, y < z
          rw [Nat.compare_eq_eq] at hxy
          rw [Nat.compare_eq_lt] at hyz
          have : compare x z = .lt := by rw [Nat.compare_eq_lt]; omega
          simp [this]
        · -- x = y, y = z
          rw [Nat.compare_eq_eq] at hxy hyz
          have : compare x z = .eq := by rw [Nat.compare_eq_eq]; omega
          simp [this]
          exact ih ys zs hab hbc

theorem cmpBytes_ne_of_lt {a b : Bytes} (h : cmpBytes a b = .lt) : a ≠ b := by
  intro he; subst he; rw [cmpBytes_refl] at h; cases h

theorem cmpBytes_ne_of_gt {a b : Bytes} (h : cmpBytes a b = .gt) : a ≠ b := by
  intro he; subst he; rw [cmpBytes_refl] at h; cases h

/-! ## `slice::binary_search_by`

Rust's loop keeps `left < right`, probes `mid = left + (right-left)/2`
and shrinks the span each iteration, so the span is strict fuel; with
fuel `right - left` the fuel never runs out.  `.inl i` is `Ok(i)`
(comparator returned `Equal` at `i`), `.inr i` is `Err(i)` (insertion
point). -/

def bsearchGo (f : Nat → Ordering) : Nat → Nat → Nat → Nat ⊕ Nat
  | 0, left, _ => .inr left
  | fuel + 1, left, right =>
    if left < right then
      match f (left + (right - left) / 2) with
      | .lt => bsearchGo f fuel (left + (right - left) / 2 + 1) right
      | .gt => bsearchGo f fuel left (left + (right - left) / 2)
      | .eq => .inl (left + (right - left) / 2)
    else .inr left

def bsearch (f : Nat → Ordering) (left right : Nat) : Nat ⊕ Nat :=
  bsearchGo f (right - left) left right

theorem bsearchGo_inl (f : Nat → Ordering) :
    ∀ fuel left right i, bsearchGo f fuel left right = .inl i →
      left ≤ i ∧ i < right ∧ f i = .eq := by
  intro fuel
  induction fuel with
  | zero => intro l r i h; cases h
  | succ fuel ih =>
    intro l r i h
    unfold bsearchGo at h
    split at h
    · next hlr =>
      rcases hf : f (l + (r - l) / 2) with _ | _ | _ <;> rw [hf] at h <;> simp at h
      · have := ih _ _ _ h
        exact ⟨by omega, this.2.1, this.2.2⟩
      · subst h
        exact ⟨by omega, by omega, hf⟩
      · have := ih _ _ _ h
        exact ⟨this.1, by omega, this.2.2⟩
    · cases h

theorem bsearchGo_inr (f : Nat → Ordering) (n : Nat)
    (hmono1 : ∀ i j, i ≤ j → j < n → f j = .lt → f i = .lt)
    (hmono2 : ∀ i j, i ≤ j → j < n → f i = .gt → f j = .gt) :
    ∀ fuel left right j, right - left ≤ fuel → left ≤ right → right ≤ n →
      bsearchGo f fuel left right = .inr j →
      left ≤ j ∧ j ≤ right ∧
        (∀ i, left ≤ i → i < j → f i = .lt) ∧
        (∀ i, j ≤ i → i < right → f i = .gt) := by
  intro fuel
  induction fuel with
  | zero =>
    intro l r j hf hlr hr h
    cases h
    exact ⟨le_refl _, by omega, fun i h1 h2 => by omega, fun i h1 h2 => by omega⟩
  | succ fuel ih =>
    intro l r j hfuel hlr' hr h
    unfold bsearchGo at h
    split at h
    · next hlr =>
      rcases hf : f (l + (r - l) / 2) with _ | _ | _ <;> rw [hf] at h <;> simp at h
      · -- comparator Less: continue in (mid, right)
        have hrec := ih _ _ _ (by omega) (by omega) hr h
        refine ⟨by omega, hrec.2.1, ?_, hrec.2.2.2⟩
        intro i h1 h2
        by_cases hcase : i ≤ l + (r - l) / 2
        · exact hmono1 i _ hcase (by omega) hf
        · exact hrec.2.2.1 i (by omega) h2
      · -- comparator Greater: continue in [left, mid)
        have hrec := ih _ _ _ (by omega) (by omega) (by omega) h
        refine ⟨hrec.1, by omega, hrec.2.2.1, ?_⟩
        intro i h1 h2
        by_cases hcase : i < l + (r - l) / 2
        · exact hrec.2.2.2 i h1 hcase
        · exact hmono2 _ i (by omega) (by omega) hf
    · cases h
      exact ⟨le_refl _, by omega, fun i h1 h2 => by omega, fun i h1 h2 => by omega⟩

/-- On a span whose comparator is `Equal` somewhere, `binary_search_by`
returns `Ok`. -/
theorem bsearch_found (f : Nat → Ordering) (n : Nat)
    (hmono1 : ∀ i j, i ≤ j → j < n → f j = .lt → f i = .lt)
    (hmono2 : ∀ i j, i ≤ j → j < n → f i = .gt → f j = .gt)
    (i0 : Nat) (hi0 : i0 < n) (heq : f i0 = .eq) :
    ∃ i, bsearch f 0 n = .inl i ∧ i < n ∧ f i = .eq := by
  rcases h : bsearch f 0 n with i | j
  · have := bsearchGo_inl f _ _ _ _ h
    exact ⟨i, rfl, this.2.1, this.2.2⟩
  · exfalso
    have := bsearchGo_inr f n hmono1 hmono2 _ 0 n j (by omega) (by omega) (le_refl _) h
    by_cases hc : i0 < j
    · have := this.2.2.1 i0 (by omega) hc
      rw [heq] at this; cases this
    · have := this.2.2.2 i0 (by omega) hi0
      rw [heq] at this; cases this

/-- `binary_search_by` whose comparator may panic (the comparator in
`DataPage::get_node` decodes the probed node with `unwrap`): `none`
propagates a panic. -/
def bsearchMGo (f : Nat → Option Ordering) : Nat → Nat → Nat → Option (Nat ⊕ Nat)
  | 0, left, _ => some (.inr left)
  | fuel + 1, left, right =>
    if left < right then
      match f (left + (right - left) / 2) with
      | none => none
      | some .lt => bsearchMGo f fuel (left + (right - left) / 2 + 1) right
      | some .gt => bsearchMGo f fuel left (left + (right - left) / 2)
      | some .eq => some (.inl (left + (right - left) / 2))
    else some (.inr left)

def bsearchM (f : Nat → Option Ordering) (left right : Nat) : Option (Nat ⊕ Nat) :=
  bsearchMGo f (right - left) left right

/-- When every probe in the span decodes, the panicking search agrees
with the total one. -/
theorem bsearchMGo_eq (f : Nat → Option Ordering) (g : Nat → Ordering) :
    ∀ fuel left right, (∀ i, left ≤ i → i < right → f i = some (g i)) →
      bsearchMGo f fuel left right = some (bsearchGo g fuel left right) := by
  intro fuel
  induction fuel with
  | zero => intro l r hpt; rfl
  | succ fuel ih =>
    intro l r hpt
    unfold bsearchMGo bsearchGo
    split
    · next hlr =>
      rw [hpt (l + (r - l) / 2) (by omega) (by omega)]
      rcases g (l + (r - l) / 2) with _ | _ | _
      · simp only []
        exact ih _ _ (fun i h1 h2 => hpt i (by omega) h2)
      · rfl
      · simp only []
        exact ih _ _ (fun i h1 h2 => hpt i h1 (by omega))
    · rfl

theorem bsearchM_eq (f : Nat → Option Ordering) (g : Nat → Ordering) (n : Nat)
    (hpt : ∀ i, i < n → f i = some (g i)) :
    bsearchM f 0 n = some (bsearch g 0 n) :=
  bsearchMGo_eq f g n 0 n (fun i _ h2 => hpt i h2)

/-! ## Nodes (`data_page.rs`: `DataNode`) -/

/-- `constants.rs`: `DBError`. -/
inductive DBError where
  | WriteLeafPageFailed
  | KeyNotFound
  deriving DecidableEq, Repr

/-- `data_page.rs`: `DataNode` (flags are the raw `u16` bits; `NodeFlag::ALIVE = 1`). -/
structure DataNode where
  flags : Nat
  key_size : Nat
  data_size : Nat
  key : Bytes
  data : Bytes
  deriving DecidableEq, Repr

instance : Inhabited DataNode := ⟨⟨0, 0, 0, [], []⟩⟩

/-- `DataNode::from(key, data)`: fresh node, `ALIVE`, sizes from the slices. -/
def DataNode.from' (key data : Bytes) : DataNode :=
  ⟨1, key.length, data.length, key, data⟩

/-- `DataNode::pack`: `flags (u16) ‖ key_size (usize) ‖ data_size (usize) ‖ key ‖ data`,
little-endian. -/
def DataNode.pack (n : DataNode) : Bytes :=
  u16le n.flags ++ u64le n.key_size ++ u64le n.data_size ++ n.key ++ n.data

/-- `DataNode::get_size`: `key_size + data_size + 2 * USIZE_N + 2`. -/
def DataNode.get_size (n : DataNode) : Nat :=
  n.key_size + n.data_size + 2 * USIZE_N + 2

/-- Well-formedness every node decoded from a page body or built by
`DataNode::from` enjoys: recognized flag bits (`ALIVE`/`DIRTY`, i.e.
`< 4`) and size fields that are the actual slice lengths and fit in a
`usize`. -/
def NodeWF (n : DataNode) : Prop :=
  n.flags < 4 ∧ n.key_size = n.key.length ∧ n.data_size = n.data.length ∧
    n.key_size < 2 ^ 64 ∧ n.data_size < 2 ^ 64

instance (n : DataNode) : Decidable (NodeWF n) := by unfold NodeWF; infer_instance

theorem pack_length (n : DataNode) (h2 : n.key_size = n.key.length)
    (h3 : n.data_size = n.data.length) :
    n.pack.length = n.get_size := by
  simp [DataNode.pack, DataNode.get_size, USIZE_N, h2, h3]
  omega

theorem pack_length_ge (n : DataNode) : 18 ≤ n.pack.length := by
  simp [DataNode.pack]
  omega

/-- `bitflags` `NodeFlag::from_bits`: `some` iff no bit outside
`ALIVE | DIRTY = 0b11` is set; for a `u16` value that is exactly `v < 4`. -/
def nodeFlagFromBits (v : Nat) : Option Nat :=
  if v < 4 then some v else none

/-- `data_page.rs`: `DataPage::read_node_from_offset` on a byte region.
Every `unwrap`/`expect` of the source is an `Option` bind (`none` is the
panic). -/
def read_node_from_offset (data : Bytes) (offset : Nat) : Option DataNode :=
  (readU16 data offset).bind fun fbits =>
  (nodeFlagFromBits fbits).bind fun flags =>
  (readU64 data (offset + U16_N)).bind fun key_size =>
  (readU64 data (offset + U16_N + USIZE_N)).bind fun data_size =>
  (readNBytes data (offset + U16_N + USIZE_N * 2) key_size).bind fun key =>
  (readNBytes data (offset + U16_N + USIZE_N * 2 + key_size) data_size).map fun d =>
  ⟨flags, key_size, data_size, key, d⟩

/-! ## Decoding a packed node -/

theorem pack_getD_flags (n : DataNode) (j : Nat) (h : j < 2) :
    n.pack.getD j 0 = (u16le n.flags).getD j 0 := by
  unfold DataNode.pack
  rw [List.append_assoc, List.append_assoc, List.append_assoc]
  exact List.getD_append _ _ 0 j (by simpa using h)

theorem pack_getD_ksize (n : DataNode) (j : Nat) (h : j < 8) :
    n.pack.getD (2 + j) 0 = (u64le n.key_size).getD j 0 := by
  unfold DataNode.pack
  rw [List.append_assoc, List.append_assoc, List.append_assoc]
  have h1 : (u16le n.flags).length ≤ 2 + j := by simp only [u16le_length]; omega
  rw [List.getD_append_right _ _ 0 _ h1]
  have h2 : 2 + j - (u16le n.flags).length < (u64le n.key_size).length := by
    simp only [u16le_length, u64le_length]; omega
  rw [List.getD_append _ _ 0 _ h2]
  congr 1
  simp only [u16le_length]
  omega

theorem pack_getD_dsize (n : DataNode) (j : Nat) (h : j < 8) :
    n.pack.getD (10 + j) 0 = (u64le n.data_size).getD j 0 := by
  unfold DataNode.pack
  rw [List.append_assoc, List.append_assoc, List.append_assoc]
  have h1 : (u16le n.flags).length ≤ 10 + j := by simp only [u16le_length]; omega
  rw [List.getD_append_right _ _ 0 _ h1]
  have h2 : (u64le n.key_size).length ≤ 10 + j - (u16le n.flags).length := by
    simp only [u16le_length, u64le_length]; omega
  rw [List.getD_append_right _ _ 0 _ h2]
  have h3 : 10 + j - (u16le n.flags).length - (u64le n.key_size).length <
      (u64le n.data_size).length := by
    simp only [u16le_length, u64le_length]; omega
  rw [List.getD_append _ _ 0 _ h3]
  congr 1
  simp only [u16le_length, u64le_length]
  omega

theorem pack_getD_key (n : DataNode) (j : Nat) (h : j < n.key.length) :
    n.pack.getD (18 + j) 0 = n.key.getD j 0 := by
  unfold DataNode.pack
  rw [List.append_assoc, List.append_assoc, List.append_assoc]
  have h1 : (u16le n.flags).length ≤ 18 + j := by simp only [u16le_length]; omega
  rw [List.getD_append_right _ _ 0 _ h1]
  have h2 : (u64le n.key_size).length ≤ 18 + j - (u16le n.flags).length := by
    simp only [u16le_length, u64le_length]; omega
  rw [List.getD_append_right _ _ 0 _ h2]
  have h3 : (u64le n.data_size).length ≤
      18 + j - (u16le n.flags).length - (u64le n.key_size).length := by
    simp only [u16le_length, u64le_length]; omega
  rw [List.getD_append_right _ _ 0 _ h3]
  have h4 : 18 + j - (u16le n.flags).length - (u64le n.key_size).length -
      (u64le n.data_size).length < n.key.length := by
    simp only [u16le_length, u64le_length]; omega
  rw [List.getD_append _ _ 0 _ h4]
  congr 1
  simp only [u16le_length, u64le_length]
  omega

theorem pack_getD_data (n : DataNode) (j : Nat) (h : j < n.data.length) :
    n.pack.getD (18 + n.key.length + j) 0 = n.data.getD j 0 := by
  unfold DataNode.pack
  rw [List.append_assoc, List.append_assoc, List.append_assoc]
  have h1 : (u16le n.flags).length ≤ 18 + n.key.length + j := by
    simp only [u16le_length]; omega
  rw [List.getD_append_right _ _ 0 _ h1]
  have h2 : (u64le n.key_size).length ≤ 18 + n.key.length + j - (u16le n.flags).length := by
    simp only [u16le_length, u64le_length]; omega
  rw [List.getD_append_right _ _ 0 _ h2]
  have h3 : (u64le n.data_size).length ≤
      18 + n.key.length + j - (u16le n.flags).length - (u64le n.key_size).length := by
    simp only [u16le_length, u64le_length]; omega
  rw [List.getD_append_right _ _ 0 _ h3]
  have h4 : n.key.length ≤ 18 + n.key.length + j - (u16le n.flags).length -
      (u64le n.key_size).length - (u64le n.data_size).length := by
    simp only [u16le_length, u64le_length]; omega
  rw [List.getD_append_right _ _ 0 _ h4]
  congr 1
  simp only [u16le_length, u64le_length]
  omega

/-- Decoding at an offset where the buffer holds exactly `n.pack`
recovers `n` (the heart of the encode/decode round-trip). -/
theorem read_node_pointwise (data : Bytes) (n : DataNode) (hwf : NodeWF n) (off : Nat)
    (hlen : off + n.pack.length ≤ data.length)
    (hpt : ∀ j, j < n.pack.length → data.getD (off + j) 0 = n.pack.getD j 0) :
    read_node_from_offset data off = some n := by
  obtain ⟨hf, hk, hd, hk64, hd64⟩ := hwf
  have hplen : n.pack.length = 18 + n.key.length + n.data.length := by
    simp [DataNode.pack]; omega
  have hflags : readU16 data off = some n.flags := by
    unfold readU16
    rw [readNBytes_of_pointwise data (u16le n.flags) off 2 (by omega) (by simp)
      (fun j hj => by rw [hpt j (by omega), pack_getD_flags n j hj])]
    simp [leVal_u16le n.flags (by omega)]
  have hksize : readU64 data (off + U16_N) = some n.key_size := by
    unfold readU64
    rw [readNBytes_of_pointwise data (u64le n.key_size) (off + U16_N) 8
      (by simp [U16_N]; omega) (by simp)
      (fun j hj => by
        have : off + U16_N + j = off + (2 + j) := by simp [U16_N]; omega
        rw [this, hpt (2 + j) (by omega), pack_getD_ksize n j hj])]
    simp [leVal_u64le n.key_size hk64]
  have hdsize : readU64 data (off + U16_N + USIZE_N) = some n.data_size := by
    unfold readU64
    rw [readNBytes_of_pointwise data (u64le n.data_size) (off + U16_N + USIZE_N) 8
      (by simp [U16_N, USIZE_N]; omega) (by simp)
      (fun j hj => by
        have : off + U16_N + USIZE_N + j = off + (10 + j) := by simp [U16_N, USIZE_N]; omega
        rw [this, hpt (10 + j) (by omega), pack_getD_dsize n j hj])]
    simp [leVal_u64le n.data_size hd64]
  have hkey : readNBytes data (off + U16_N + USIZE_N * 2) n.key_size = some n.key := by
    rw [readNBytes_of_pointwise data n.key (off + U16_N + USIZE_N * 2) n.key_size
      (by simp [U16_N, USIZE_N]; omega) hk.symm
      (fun j hj => by
        have hj' : j < n.key.length := by omega
        have : off + U16_N + USIZE_N * 2 + j = off + (18 + j) := by
          simp [U16_N, USIZE_N]; omega
        rw [this, hpt (18 + j) (by omega), pack_getD_key n j hj'])]
  have hdata : readNBytes data (off + U16_N + USIZE_N * 2 + n.key_size) n.data_size
      = some n.data := by
    rw [readNBytes_of_pointwise data n.data (off + U16_N + USIZE_N * 2 + n.key_size)
      n.data_size (by simp [U16_N, USIZE_N]; omega) hd.symm
      (fun j hj => by
        have hj' : j < n.data.length := by omega
        have : off + U16_N + USIZE_N * 2 + n.key_size + j
            = off + (18 + n.key.length + j) := by simp [U16_N, USIZE_N]; omega
        rw [this, hpt (18 + n.key.length + j) (by omega), pack_getD_data n j hj'])]
  have hfb : nodeFlagFromBits n.flags = some n.flags := by
    unfold nodeFlagFromBits
    rw [if_pos hf]
  simp [read_node_from_offset, hflags, hfb, hksize, hdsize, hkey, hdata]

/-! ## The page frame and `write_new_page` -/

/-- `page.rs`: `Page` (header fields plus the 4080-byte body).
`Page::from` (the constructor `data_page.rs` calls with
`(pgno, 0x0, PageFlag::ALIVE, lower as u16, upper as u16, buf)`) is not
under `src/`; modelled from the spec (§4.2 `construct`) and the `Page`
struct as the plain record constructor, header fields truncated to
their declared widths. -/
structure Page where
  pgno : Nat
  pad : Nat
  flags : Nat
  lower : Nat
  upper : Nat
  data : Bytes
  deriving Repr

/-- `PageFlag::ALIVE` bit. -/
def pageFlagAlive : Nat := 1

def Page.from' (pgno pad flags lower upper : Nat) (data : Bytes) : Page :=
  ⟨pgno, pad % 2 ^ 16, flags, lower % 2 ^ 16, upper % 2 ^ 16, data⟩

/-- `buf[start..start + bs.length].copy_from_slice(bs)` on a list
(callers guard the bounds exactly like the slice indexing panics do). -/
def writeRange (buf : Bytes) (start : Nat) (bs : Bytes) : Bytes :=
  buf.take start ++ bs ++ buf.drop (start + bs.length)

theorem writeRange_length (buf bs : Bytes) (start : Nat)
    (h : start + bs.length ≤ buf.length) :
    (writeRange buf start bs).length = buf.length := by
  simp [writeRange, List.length_take, List.length_drop]
  omega

theorem getD_writeRange (buf bs : Bytes) (start i : Nat)
    (h : start + bs.length ≤ buf.length) :
    (writeRange buf start bs).getD i 0 =
      if start ≤ i ∧ i < start + bs.length then bs.getD (i - start) 0
      else buf.getD i 0 := by
  unfold writeRange
  rw [List.append_assoc]
  have htk : (buf.take start).length = start := by
    simp only [List.length_take]; omega
  by_cases h1 : i < start
  · rw [if_neg (by omega)]
    rw [List.getD_append _ _ 0 i (by omega)]
    show ((buf.take start).get? i).getD 0 = (buf.get? i).getD 0
    rw [List.get?_take (by omega)]
  · rw [List.getD_append_right _ _ 0 i (by omega)]
    rw [htk]
    by_cases h2 : i < start + bs.length
    · rw [if_pos ⟨by omega, h2⟩]
      exact List.getD_append _ _ 0 _ (by omega)
    · rw [if_neg (by omega)]
      rw [List.getD_append_right _ _ 0 _ (by omega)]
      show ((buf.drop (start + bs.length)).get? (i - start - bs.length)).getD 0
        = (buf.get? i).getD 0
      rw [List.get?_drop]
      have : start + bs.length + (i - start - bs.length) = i := by omega
      rw [this]

/-- The loop body of `DataPage::write_new_page`: pack each node at the
top (`upper` moving down), record the little-endian `u16` offset at the
bottom (`lower` moving up).  The guards are exactly the Rust panics:
`upper - node_bytes.len()` must not underflow and both slice writes must
stay inside the 4080-byte buffer. -/
def writeLoop : List DataNode → Bytes × Nat × Nat → Option (Bytes × Nat × Nat)
  | [], st => some st
  | n :: ns, (buf, lower, upper) =>
    if n.pack.length ≤ upper ∧ upper ≤ buf.length ∧ lower + 2 ≤ buf.length then
      writeLoop ns
        (writeRange (writeRange buf (upper - n.pack.length) n.pack) lower
          (u16le (upper - n.pack.length)),
         lower + 2, upper - n.pack.length)
    else none

/-- `data_page.rs`: `DataPage::write_new_page`.  Starts from a fresh
zeroed `[0u8; PAGE_BUF_SIZE]` buffer and ends with
`Page::from(pgno, 0x0, PageFlag::ALIVE, lower as u16, upper as u16, buf)`. -/
def write_new_page (pgno : Nat) (nodes : List DataNode) : Option Page :=
  (writeLoop nodes (List.replicate PAGE_BUF_SIZE 0, 0, PAGE_BUF_SIZE)).map
    fun st => Page.from' pgno 0 pageFlagAlive st.2.1 st.2.2 st.1

/-- Total packed size of a node list. -/
def sumPack (ns : List DataNode) : Nat := (ns.map fun n => n.pack.length).sum

/-- The node offsets `write_new_page` records, in slot order, when the
loop starts with `upper = u`. -/
def offsList : List DataNode → Nat → List Nat
  | [], _ => []
  | n :: ns, u => (u - n.pack.length) :: offsList ns (u - n.pack.length)

/-- The slot-array bytes: the offsets as consecutive little-endian `u16`s. -/
def slotBytes (ns : List DataNode) (u : Nat) : Bytes :=
  (offsList ns u).flatMap u16le

/-- The byte content of the node region `[u - sumPack ns, u)`:
packed records in reverse order (the loop packs top-down). -/
def nodeBlob (ns : List DataNode) : Bytes :=
  ((ns.map DataNode.pack).reverse).flatten

@[simp] theorem sumPack_nil : sumPack [] = 0 := rfl

theorem sumPack_cons (n : DataNode) (ns : List DataNode) :
    sumPack (n :: ns) = n.pack.length + sumPack ns := by
  simp [sumPack]

theorem offsList_length (ns : List DataNode) (u : Nat) :
    (offsList ns u).length = ns.length := by
  induction ns generalizing u with
  | nil => rfl
  | cons n ns ih => simp [offsList, ih]

theorem slotBytes_length (ns : List DataNode) (u : Nat) :
    (slotBytes ns u).length = 2 * ns.length := by
  induction ns generalizing u with
  | nil => rfl
  | cons n ns ih =>
    simp only [slotBytes, offsList, List.flatMap_cons] at ih ⊢
    simp [ih]
    omega

theorem nodeBlob_nil : nodeBlob [] = [] := rfl

theorem nodeBlob_cons (n : DataNode) (ns : List DataNode) :
    nodeBlob (n :: ns) = nodeBlob ns ++ n.pack := by
  simp [nodeBlob]

theorem nodeBlob_length (ns : List DataNode) : (nodeBlob ns).length = sumPack ns := by
  induction ns with
  | nil => rfl
  | cons n ns ih => rw [nodeBlob_cons, sumPack_cons, List.length_append, ih]; omega

theorem slotBytes_cons (n : DataNode) (ns : List DataNode) (u : Nat) :
    slotBytes (n :: ns) u = u16le (u - n.pack.length) ++ slotBytes ns (u - n.pack.length) := by
  simp [slotBytes, offsList]

theorem offsList_le (ns : List DataNode) (u : Nat) :
    ∀ o ∈ offsList ns u, o ≤ u := by
  induction ns generalizing u with
  | nil => intro o ho; cases ho
  | cons n ns ih =>
    intro o ho
    rcases ho with _ | ⟨_, hmem⟩
    · omega
    · have := ih (u - n.pack.length) _ hmem
      omega

/-- Full description of the buffer `write_new_page`'s loop constructs
when the node records and the slot array fit side by side (the
`Fits` regime): slots in `[l, l + 2·len)`, untouched gap, packed nodes
in `[u - sumPack, u)`, everything else preserved. -/
theorem writeLoop_spec :
    ∀ (ns : List DataNode) (buf : Bytes) (l u : Nat),
      u ≤ buf.length →
      l + 2 * ns.length + sumPack ns ≤ u →
      ∃ buf',
        writeLoop ns (buf, l, u) = some (buf', l + 2 * ns.length, u - sumPack ns) ∧
        buf'.length = buf.length ∧
        (∀ i, i < l → buf'.getD i 0 = buf.getD i 0) ∧
        (∀ i, l ≤ i → i < l + 2 * ns.length →
          buf'.getD i 0 = (slotBytes ns u).getD (i - l) 0) ∧
        (∀ i, l + 2 * ns.length ≤ i → i < u - sumPack ns →
          buf'.getD i 0 = buf.getD i 0) ∧
        (∀ i, u - sumPack ns ≤ i → i < u →
          buf'.getD i 0 = (nodeBlob ns).getD (i - (u - sumPack ns)) 0) ∧
        (∀ i, u ≤ i → buf'.getD i 0 = buf.getD i 0) := by
  intro ns
  induction ns with
  | nil =>
    intro buf l u hu hfit
    refine ⟨buf, by simp [writeLoop], rfl, fun i _ => rfl, ?_, fun i _ _ => rfl, ?_,
      fun i _ => rfl⟩
    · intro i h1 h2
      simp only [List.length_nil] at h2
      omega
    · intro i h1 h2
      simp only [sumPack_nil, Nat.sub_zero] at h1
      omega
  | cons n ns ih =>
    intro buf l u hu hfit
    rw [sumPack_cons] at hfit ⊢
    simp only [List.length_cons] at hfit ⊢
    have hs18 : 18 ≤ n.pack.length := pack_length_ge n
    have hguard : n.pack.length ≤ u ∧ u ≤ buf.length ∧ l + 2 ≤ buf.length := by
      refine ⟨by omega, hu, by omega⟩
    have hlen1 : (writeRange buf (u - n.pack.length) n.pack).length = buf.length := by
      apply writeRange_length
      omega
    have hlen2 : (writeRange (writeRange buf (u - n.pack.length) n.pack) l
        (u16le (u - n.pack.length))).length = buf.length := by
      rw [writeRange_length, hlen1]
      rw [hlen1]
      simp only [u16le_length]
      omega
    set u1 := u - n.pack.length with hu1
    set buf2 := writeRange (writeRange buf u1 n.pack) l (u16le u1) with hbuf2def
    have hbuf2 : ∀ i, buf2.getD i 0 =
        if l ≤ i ∧ i < l + 2 then (u16le u1).getD (i - l) 0
        else if u1 ≤ i ∧ i < u then n.pack.getD (i - u1) 0
        else buf.getD i 0 := by
      intro i
      rw [hbuf2def]
      rw [getD_writeRange _ _ _ _ (by rw [hlen1]; simp only [u16le_length]; omega)]
      by_cases hc1 : l ≤ i ∧ i < l + 2
      · rw [if_pos (by simpa using hc1), if_pos hc1]
      · rw [if_neg (by simpa using hc1), if_neg hc1]
        rw [getD_writeRange _ _ _ _ (by omega)]
        by_cases hc2 : u1 ≤ i ∧ i < u
        · rw [if_pos (by constructor <;> omega), if_pos hc2]
        · rw [if_neg (fun hcc => hc2 ⟨hcc.1, by omega⟩), if_neg hc2]
    obtain ⟨buf', heq, hlen, hbelow, hslot, hgap, hnode, habove⟩ :=
      ih buf2 (l + 2) u1 (by rw [hlen2]; omega) (by omega)
    refine ⟨buf', ?_, by rw [hlen, hlen2], ?_, ?_, ?_, ?_, ?_⟩
    · -- the equation
      show writeLoop (n :: ns) (buf, l, u) = _
      unfold writeLoop
      rw [if_pos hguard]
      rw [← hbuf2def, heq]
      have e1 : l + 2 + 2 * ns.length = l + 2 * (ns.length + 1) := by omega
      have e2 : u1 - sumPack ns = u - (n.pack.length + sumPack ns) := by omega
      rw [e1, e2]
    · -- below l
      intro i hi
      rw [hbelow i (by omega), hbuf2 i, if_neg (by omega), if_neg (by omega)]
    · -- slot region
      intro i h1 h2
      rw [slotBytes_cons, ← hu1]
      by_cases hc : i < l + 2
      · rw [hbelow i (by omega), hbuf2 i, if_pos ⟨h1, hc⟩]
        rw [List.getD_append _ _ 0 _ (by simp only [u16le_length]; omega)]
      · rw [hslot i (by omega) (by omega)]
        rw [List.getD_append_right _ _ 0 _ (by simp only [u16le_length]; omega)]
        simp only [u16le_length]
        congr 1
    · -- untouched gap
      intro i h1 h2
      rw [hgap i (by omega) (by omega), hbuf2 i, if_neg (by omega), if_neg (by omega)]
    · -- node region
      intro i h1 h2
      rw [nodeBlob_cons]
      by_cases hc : i < u1
      · rw [hnode i (by omega) (by omega)]
        rw [List.getD_append _ _ 0 _ (by rw [nodeBlob_length]; omega)]
        congr 1
        omega
      · rw [habove i (by omega), hbuf2 i, if_neg (by omega), if_pos ⟨by omega, h2⟩]
        rw [List.getD_append_right _ _ 0 _ (by rw [nodeBlob_length]; omega)]
        rw [nodeBlob_length]
        congr 1
        omega
    · -- above u
      intro i hi
      rw [habove i (by omega), hbuf2 i, if_neg (by omega), if_neg (by omega)]

/-- Bookkeeping facts every successful loop run satisfies, capacity
check or not: final `lower` and `upper`, preserved buffer length, and a
bound keeping the final `lower` inside the buffer. -/
theorem writeLoop_some :
    ∀ (ns : List DataNode) (buf : Bytes) (l u : Nat) (buf' : Bytes) (l' u' : Nat),
      writeLoop ns (buf, l, u) = some (buf', l', u') →
      l' = l + 2 * ns.length ∧ sumPack ns ≤ u ∧ u' = u - sumPack ns ∧
        buf'.length = buf.length ∧ (ns = [] ∨ l' ≤ buf.length) := by
  intro ns
  induction ns with
  | nil =>
    intro buf l u buf' l' u' h
    simp [writeLoop] at h
    obtain ⟨h1, h2, h3⟩ := h
    subst h1; subst h2; subst h3
    exact ⟨by simp, by simp, by simp, rfl, Or.inl rfl⟩
  | cons n ns ih =>
    intro buf l u buf' l' u' h
    unfold writeLoop at h
    split at h
    · next hguard =>
      obtain ⟨hg1, hg2, hg3⟩ := hguard
      have hlenA : (writeRange buf (u - n.pack.length) n.pack).length = buf.length :=
        writeRange_length _ _ _ (by omega)
      have hlen2 : (writeRange (writeRange buf (u - n.pack.length) n.pack) l
          (u16le (u - n.pack.length))).length = buf.length := by
        rw [writeRange_length _ _ _ (by rw [hlenA]; simp only [u16le_length]; omega), hlenA]
      obtain ⟨h1, h2, h3, h4, h5⟩ := ih _ _ _ _ _ _ h
      rw [sumPack_cons]
      refine ⟨by simp [h1]; omega, by omega, by omega, by rw [h4, hlen2], Or.inr ?_⟩
      rcases h5 with h5 | h5
      · subst h5
        simp at h1
        omega
      · rw [hlen2] at h5
        exact h5
    · cases h

/-- A successful loop run never writes into the final free gap
`[l', u')`: those bytes keep their original value. -/
theorem writeLoop_untouched :
    ∀ (ns : List DataNode) (buf : Bytes) (l u : Nat) (buf' : Bytes) (l' u' : Nat),
      writeLoop ns (buf, l, u) = some (buf', l', u') → l ≤ l' ∧ u' ≤ u ∧
      (∀ i, l' ≤ i → i < u' → buf'.getD i 0 = buf.getD i 0) := by
  intro ns
  induction ns with
  | nil =>
    intro buf l u buf' l' u' h
    simp [writeLoop] at h
    obtain ⟨h1, h2, h3⟩ := h
    subst h1; subst h2; subst h3
    exact ⟨le_refl _, le_refl _, fun i _ _ => rfl⟩
  | cons n ns ih =>
    intro buf l u buf' l' u' h
    unfold writeLoop at h
    split at h
    · next hguard =>
      obtain ⟨hg1, hg2, hg3⟩ := hguard
      have hlenA : (writeRange buf (u - n.pack.length) n.pack).length = buf.length :=
        writeRange_length _ _ _ (by omega)
      obtain ⟨ha, hb, hc⟩ := ih _ _ _ _ _ _ h
      refine ⟨by omega, by omega, ?_⟩
      intro i h1 h2
      rw [hc i h1 h2]
      rw [getD_writeRange _ _ _ _ (by rw [hlenA]; simp only [u16le_length]; omega)]
      rw [if_neg (by simp only [u16le_length]; omega)]
      rw [getD_writeRange _ _ _ _ (by omega)]
      rw [if_neg (by omega)]
    · cases h

/-! ## `DataPage` and its operations -/

/-- `data_page.rs`: `DataPage` (borrowed views over a `Page`). -/
structure DataPage where
  pgno : Nat
  flags : Nat
  lower : Nat
  upper : Nat
  offsets : List Nat
  data : Bytes

/-- Modelled from the spec: `as_u16_slice` (imported by `data_page.rs`
from `buf.rs`) is missing from `src/`; §4.3 `decode_slots` specifies
"the first `lower` bytes of body, reinterpreted as `lower/2`
little-endian `u16` values", which this implements (an odd trailing
byte is dropped, as reinterpretation at `u16` width drops it). -/
def toU16s : Bytes → List Nat
  | b0 :: b1 :: rest => (b0 + 256 * b1) :: toU16s rest
  | _ => []

/-- `data_page.rs`: `DataPage::get_node_offset`: `as_u16_slice(&data[..lower])`;
the slice panics (`none`) when `lower` exceeds the body length. -/
def get_node_offset (data : Bytes) (lower : Nat) : Option (List Nat) :=
  if lower ≤ data.length then some (toU16s (data.take lower)) else none

/-- `data_page.rs`: `DataPage::from`. -/
def DataPage.from' (page : Page) : Option DataPage :=
  (get_node_offset page.data page.lower).map fun offs =>
    ⟨page.pgno, page.flags, page.lower, page.upper, offs, page.data⟩

/-- The `.iter().map(read_node_from_offset).collect()` of `put`/`split`:
decode every slot, propagating the decoder's panics. -/
def decodeAll (data : Bytes) : List Nat → Option (List DataNode)
  | [] => some []
  | off :: rest =>
    (read_node_from_offset data off).bind fun n =>
      (decodeAll data rest).map fun ns => n :: ns

def DataPage.nodesOf (dp : DataPage) : Option (List DataNode) :=
  decodeAll dp.data dp.offsets

/-- The in-memory node-list update of `DataPage::put`:
`binary_search_by(|n| n.key.cmp(key))`, then `nodes[idx] = …` (upsert)
or `nodes.insert(idx, …)` (insert, i.e. shift the tail right). -/
def upsertList (ns : List DataNode) (key data : Bytes) : List DataNode :=
  match bsearch (fun i => cmpBytes (ns.getD i default).key key) 0 ns.length with
  | .inl idx => ns.set idx (DataNode.from' key data)
  | .inr idx => ns.take idx ++ DataNode.from' key data :: ns.drop idx

/-- `data_page.rs`: `DataPage::put` (the source's `Result` is always
`Ok`; the only failure mode is a panic inside decode or rebuild,
modelled by `none`). -/
def DataPage.put (dp : DataPage) (new_pgno : Nat) (key data : Bytes) : Option Page :=
  dp.nodesOf.bind fun nodes => write_new_page new_pgno (upsertList nodes key data)

/-- `data_page.rs`: `DataPage::split`: decode all nodes, split at
`len / 2`, rebuild two fresh pages. -/
def DataPage.split (dp : DataPage) (pgno_left pgno_right : Nat) : Option (Page × Page) :=
  dp.nodesOf.bind fun nodes =>
    (write_new_page pgno_left (nodes.take (nodes.length / 2))).bind fun left_page =>
      (write_new_page pgno_right (nodes.drop (nodes.length / 2))).map fun right_page =>
        (left_page, right_page)

/-- `data_page.rs`: `DataPage::get_node`: binary search over the slot
array, decoding each probed slot; `Err(_) ↦ Err(KeyNotFound)`. -/
def DataPage.get_node (dp : DataPage) (key : Bytes) : Option (Except DBError DataNode) :=
  (bsearchM
      (fun i => (read_node_from_offset dp.data (dp.offsets.getD i 0)).map
        fun n => cmpBytes n.key key)
      0 dp.offsets.length).bind fun r =>
    match r with
    | .inl idx => (read_node_from_offset dp.data (dp.offsets.getD idx 0)).map Except.ok
    | .inr _ => some (Except.error DBError.KeyNotFound)

/-- `data_page.rs`: `DataPage::get`: the found node's data bytes. -/
def DataPage.get (dp : DataPage) (key : Bytes) : Option (Except DBError Bytes) :=
  (dp.get_node key).map fun r => r.map fun n => n.data

/-- `data_page.rs`: `DataPage::has_space`:
`(upper - lower) > new_node.get_size()` — strict. -/
def DataPage.has_space (dp : DataPage) (new_node : DataNode) : Bool :=
  decide (new_node.get_size < dp.upper - dp.lower)

/-- The capacity regime in which slots and records coexist without
overlap: the slot array plus the packed records fit in the body. -/
def Fits (ns : List DataNode) : Prop :=
  2 * ns.length + sumPack ns ≤ PAGE_BUF_SIZE

instance (ns : List DataNode) : Decidable (Fits ns) := by unfold Fits; infer_instance

theorem PAGE_BUF_SIZE_eq : PAGE_BUF_SIZE = 4080 := rfl

/-! ## Reading back a freshly written page -/

theorem list_eq_getD (l1 l2 : Bytes) (hlen : l1.length = l2.length)
    (h : ∀ i, i < l1.length → l1.getD i 0 = l2.getD i 0) : l1 = l2 := by
  apply List.ext_getElem hlen
  intro i h1 h2
  have := h i h1
  rwa [List.getD_eq_getElem l1 0 h1, List.getD_eq_getElem l2 0 h2] at this

theorem toU16s_slotBytes (ns : List DataNode) (u : Nat) (hu : u < 2 ^ 16) :
    toU16s (slotBytes ns u) = offsList ns u := by
  induction ns generalizing u with
  | nil => rfl
  | cons n ns ih =>
    rw [slotBytes_cons]
    show toU16s ((u - n.pack.length) % 256 :: (u - n.pack.length) / 256 % 256 ::
      slotBytes ns (u - n.pack.length)) = _
    unfold toU16s
    rw [offsList]
    congr 1
    · omega
    · exact ih _ (by omega)

/-- Decoding the recorded offsets recovers exactly the node list, as
long as the bytes of the node region match `nodeBlob`. -/
theorem decodeAll_offsList :
    ∀ (ns : List DataNode) (u : Nat) (data : Bytes),
      u ≤ data.length →
      sumPack ns ≤ u →
      (∀ n ∈ ns, NodeWF n) →
      (∀ i, u - sumPack ns ≤ i → i < u →
        data.getD i 0 = (nodeBlob ns).getD (i - (u - sumPack ns)) 0) →
      decodeAll data (offsList ns u) = some ns := by
  intro ns
  induction ns with
  | nil => intro u data _ _ _ _; rfl
  | cons n ns ih =>
    intro u data hu hsum hwf hbytes
    rw [sumPack_cons] at hsum
    simp only [sumPack_cons] at hbytes
    have hblen := nodeBlob_length ns
    have hread : read_node_from_offset data (u - n.pack.length) = some n := by
      apply read_node_pointwise data n (hwf n (by simp)) _ (by omega)
      intro j hj
      have h1 : u - (n.pack.length + sumPack ns) ≤ u - n.pack.length + j := by omega
      have h2 : u - n.pack.length + j < u := by omega
      rw [hbytes _ h1 h2, nodeBlob_cons]
      rw [List.getD_append_right _ _ 0 _ (by omega)]
      congr 1
      omega
    rw [offsList]
    unfold decodeAll
    rw [hread]
    rw [ih (u - n.pack.length) data (by omega) (by omega)
      (fun m hm => hwf m (by simp [hm]))
      (fun i hi1 hi2 => by
        have h1 : u - (n.pack.length + sumPack ns) ≤ i := by omega
        rw [hbytes i h1 (by omega), nodeBlob_cons]
        rw [List.getD_append _ _ 0 _ (by omega)]
        congr 1
        omega)]
    rfl

/-- Master readback theorem: writing a well-formed, fitting node list
produces a page whose header is fully determined and whose decoded
content is exactly the node list again. -/
theorem write_new_page_spec (pg : Nat) (ns : List DataNode)
    (hwf : ∀ n ∈ ns, NodeWF n) (hfit : Fits ns) :
    ∃ p dp, write_new_page pg ns = some p ∧
      p.pgno = pg ∧ p.pad = 0 ∧ p.flags = pageFlagAlive ∧
      p.lower = 2 * ns.length ∧ p.upper = PAGE_BUF_SIZE - sumPack ns ∧
      p.data.length = PAGE_BUF_SIZE ∧
      DataPage.from' p = some dp ∧
      dp.pgno = pg ∧ dp.flags = pageFlagAlive ∧ dp.lower = p.lower ∧
      dp.upper = p.upper ∧ dp.offsets = offsList ns PAGE_BUF_SIZE ∧
      dp.data = p.data ∧ dp.nodesOf = some ns := by
  unfold Fits at hfit
  have hrep : (List.replicate PAGE_BUF_SIZE (0 : Nat)).length = PAGE_BUF_SIZE := by
    simp
  obtain ⟨buf', heq, hlen, _hbelow, hslot, _hgap, hnode, _habove⟩ :=
    writeLoop_spec ns (List.replicate PAGE_BUF_SIZE 0) 0 PAGE_BUF_SIZE
      (by rw [hrep]) (by omega)
  have hblen : buf'.length = PAGE_BUF_SIZE := by rw [hlen, hrep]
  have hlow : 2 * ns.length < 2 ^ 16 := by
    rw [PAGE_BUF_SIZE_eq] at hfit; omega
  have hup : PAGE_BUF_SIZE - sumPack ns < 2 ^ 16 := by
    rw [PAGE_BUF_SIZE_eq]; rw [PAGE_BUF_SIZE_eq] at hfit; omega
  have hpage : write_new_page pg ns =
      some (Page.from' pg 0 pageFlagAlive (0 + 2 * ns.length) (PAGE_BUF_SIZE - sumPack ns) buf') := by
    unfold write_new_page
    rw [heq]
    rfl
  set p := Page.from' pg 0 pageFlagAlive (0 + 2 * ns.length) (PAGE_BUF_SIZE - sumPack ns) buf'
    with hpdef
  have hp_lower : p.lower = 2 * ns.length := by
    rw [hpdef]; show (0 + 2 * ns.length) % 2 ^ 16 = _; omega
  have hp_upper : p.upper = PAGE_BUF_SIZE - sumPack ns := by
    rw [hpdef]; show (PAGE_BUF_SIZE - sumPack ns) % 2 ^ 16 = _; omega
  have hp_data : p.data = buf' := rfl
  have htake : buf'.take (2 * ns.length) = slotBytes ns PAGE_BUF_SIZE := by
    apply list_eq_getD
    · rw [List.length_take, slotBytes_length]
      rw [PAGE_BUF_SIZE_eq] at hblen hfit
      omega
    · intro i hi
      rw [List.length_take] at hi
      have hi' : i < 2 * ns.length := by omega
      have h1 : (buf'.take (2 * ns.length)).getD i 0 = buf'.getD i 0 := by
        show ((buf'.take (2 * ns.length)).get? i).getD 0 = (buf'.get? i).getD 0
        rw [List.get?_take hi']
      rw [h1]
      have := hslot i (by omega) (by omega)
      simpa using this
  have hfrom : DataPage.from' p =
      some ⟨pg, pageFlagAlive, p.lower, p.upper, offsList ns PAGE_BUF_SIZE, buf'⟩ := by
    unfold DataPage.from' get_node_offset
    rw [hp_data, hp_lower]
    rw [if_pos (by rw [hblen, PAGE_BUF_SIZE_eq]; rw [PAGE_BUF_SIZE_eq] at hfit; omega)]
    simp only [Option.map_some']
    have hoff : toU16s (List.take (2 * ns.length) buf') = offsList ns PAGE_BUF_SIZE := by
      rw [htake, toU16s_slotBytes ns PAGE_BUF_SIZE (by rw [PAGE_BUF_SIZE_eq]; omega)]
    rw [hoff]
    rfl
  have hnodes : decodeAll buf' (offsList ns PAGE_BUF_SIZE) = some ns := by
    apply decodeAll_offsList ns PAGE_BUF_SIZE buf' (by omega) (by omega) hwf
    intro i h1 h2
    exact hnode i h1 h2
  refine ⟨p, _, hpage, rfl, ?_, rfl, hp_lower, hp_upper, hblen, hfrom, rfl, rfl, rfl, rfl,
    rfl, rfl, hnodes⟩
  show (0 : Nat) % 2 ^ 16 = 0
  rfl

/-! ## Sorted node lists -/

/-- Strict ascending byte-lexicographic key order between nodes. -/
def keyLt (a b : DataNode) : Prop := cmpBytes a.key b.key = .lt

instance (a b : DataNode) : Decidable (keyLt a b) := by unfold keyLt; infer_instance

/-- The slot-order invariant: all keys strictly ascending. -/
def SortedNodes (ns : List DataNode) : Prop := List.Pairwise keyLt ns

instance (ns : List DataNode) : Decidable (SortedNodes ns) := by
  unfold SortedNodes
  infer_instance

/-- Reference association lookup on a decoded node list. -/
def lookupKey : List DataNode → Bytes → Option Bytes
  | [], _ => none
  | n :: ns, k => if n.key = k then some n.data else lookupKey ns k

theorem lookupKey_cons (x : DataNode) (xs : List DataNode) (k : Bytes) :
    lookupKey (x :: xs) k = if x.key = k then some x.data else lookupKey xs k := rfl

/-- Number of nodes carrying exactly key `k`. -/
def countKey (ns : List DataNode) (k : Bytes) : Nat :=
  ns.countP fun n => decide (n.key = k)

theorem list_decomp {α : Type} [Inhabited α] :
    ∀ (ns : List α) (i : Nat), i < ns.length →
      ns = ns.take i ++ ns.getD i default :: ns.drop (i + 1) := by
  intro ns
  induction ns with
  | nil => intro i h; cases h
  | cons x xs ih =>
    intro i h
    cases i with
    | zero => simp
    | succ j =>
      simp only [List.take_succ_cons, List.drop_succ_cons, List.getD_cons_succ,
        List.cons_append]
      congr 1
      exact ih j (by simpa using h)

theorem set_eq_take_drop {α : Type} [Inhabited α] :
    ∀ (ns : List α) (i : Nat) (m : α), i < ns.length →
      ns.set i m = ns.take i ++ m :: ns.drop (i + 1) := by
  intro ns
  induction ns with
  | nil => intro i m h; cases h
  | cons x xs ih =>
    intro i m h
    cases i with
    | zero => simp
    | succ j =>
      simp only [List.set_cons_succ, List.take_succ_cons, List.drop_succ_cons,
        List.cons_append]
      congr 1
      exact ih j m (by simpa using h)

theorem mem_take_getD {α : Type} [Inhabited α] (ns : List α) (j : Nat) (x : α)
    (h : x ∈ ns.take j) : ∃ i, i < ns.length ∧ i < j ∧ x = ns.getD i default := by
  obtain ⟨i, hi, hx⟩ := List.mem_iff_getElem.1 h
  have hlen : i < ns.length ∧ i < j := by
    simp [List.length_take] at hi
    omega
  refine ⟨i, hlen.1, hlen.2, ?_⟩
  rw [List.getD_eq_getElem ns default hlen.1, ← hx, List.getElem_take]

theorem mem_drop_getD {α : Type} [Inhabited α] (ns : List α) (j : Nat) (x : α)
    (h : x ∈ ns.drop j) : ∃ i, i < ns.length ∧ j ≤ i ∧ x = ns.getD i default := by
  obtain ⟨t, ht, hx⟩ := List.mem_iff_getElem.1 h
  have hlen : j + t < ns.length := by
    simp [List.length_drop] at ht
    omega
  refine ⟨j + t, hlen, by omega, ?_⟩
  rw [List.getD_eq_getElem ns default hlen, ← hx, List.getElem_drop]

theorem sorted_getD_lt (ns : List DataNode) (hs : SortedNodes ns) (i j : Nat)
    (hij : i < j) (hj : j < ns.length) :
    cmpBytes (ns.getD i default).key (ns.getD j default).key = .lt := by
  have := List.pairwise_iff_getElem.1 hs i j (by omega) hj hij
  rwa [keyLt, ← List.getD_eq_getElem ns default (by omega : i < ns.length),
    ← List.getD_eq_getElem ns default hj] at this

/-- Monotonicity of the search comparator induced by a sorted list. -/
theorem sorted_cmp_mono1 (ns : List DataNode) (hs : SortedNodes ns) (k : Bytes) :
    ∀ i j, i ≤ j → j < ns.length →
      cmpBytes (ns.getD j default).key k = .lt →
      cmpBytes (ns.getD i default).key k = .lt := by
  intro i j hij hj hlt
  rcases Nat.eq_or_lt_of_le hij with he | hlt'
  · subst he; exact hlt
  · exact cmpBytes_trans_lt _ _ _ (sorted_getD_lt ns hs i j hlt' hj) hlt

theorem sorted_cmp_mono2 (ns : List DataNode) (hs : SortedNodes ns) (k : Bytes) :
    ∀ i j, i ≤ j → j < ns.length →
      cmpBytes (ns.getD i default).key k = .gt →
      cmpBytes (ns.getD j default).key k = .gt := by
  intro i j hij hj hgt
  rcases Nat.eq_or_lt_of_le hij with he | hlt'
  · subst he; exact hgt
  · rw [← cmpBytes_swap_lt] at hgt ⊢
    exact cmpBytes_trans_lt _ _ _ hgt (sorted_getD_lt ns hs i j hlt' hj)

/-- `Ok(idx)` from the key search means the probed key is exactly `k`. -/
theorem bsearch_keys_inl (ns : List DataNode) (k : Bytes) (i : Nat)
    (h : bsearch (fun i => cmpBytes (ns.getD i default).key k) 0 ns.length = .inl i) :
    i < ns.length ∧ (ns.getD i default).key = k := by
  have := bsearchGo_inl _ _ _ _ _ h
  exact ⟨this.2.1, (cmpBytes_eq_iff _ _).1 this.2.2⟩

/-- `Err(idx)` from the key search on a sorted list is the insertion
point: everything before is strictly below `k`, everything from it on
strictly above. -/
theorem bsearch_keys_inr (ns : List DataNode) (hs : SortedNodes ns) (k : Bytes) (j : Nat)
    (h : bsearch (fun i => cmpBytes (ns.getD i default).key k) 0 ns.length = .inr j) :
    j ≤ ns.length ∧
      (∀ i, i < j → cmpBytes (ns.getD i default).key k = .lt) ∧
      (∀ i, j ≤ i → i < ns.length → cmpBytes (ns.getD i default).key k = .gt) := by
  have := bsearchGo_inr _ ns.length (sorted_cmp_mono1 ns hs k) (sorted_cmp_mono2 ns hs k)
    _ 0 ns.length j (by omega) (by omega) (le_refl _) h
  exact ⟨this.2.1, fun i hi => this.2.2.1 i (by omega) hi, this.2.2.2⟩

/-- A present key is always found on a sorted list. -/
theorem bsearch_keys_found (ns : List DataNode) (hs : SortedNodes ns) (k : Bytes)
    (i0 : Nat) (hi0 : i0 < ns.length) (hk : (ns.getD i0 default).key = k) :
    ∃ i, bsearch (fun i => cmpBytes (ns.getD i default).key k) 0 ns.length = .inl i ∧
      i < ns.length ∧ (ns.getD i default).key = k := by
  obtain ⟨i, h1, h2, h3⟩ := bsearch_found _ ns.length
    (sorted_cmp_mono1 ns hs k) (sorted_cmp_mono2 ns hs k) i0 hi0
    (by rw [hk]; exact cmpBytes_refl k)
  exact ⟨i, h1, h2, (cmpBytes_eq_iff _ _).1 h3⟩

/-! ## Properties of the upsert -/

theorem from'_key (k v : Bytes) : (DataNode.from' k v).key = k := rfl

theorem from'_data (k v : Bytes) : (DataNode.from' k v).data = v := rfl

theorem upsertList_inl (ns : List DataNode) (k v : Bytes) (i : Nat)
    (h : bsearch (fun i => cmpBytes (ns.getD i default).key k) 0 ns.length = .inl i) :
    upsertList ns k v = ns.set i (DataNode.from' k v) := by
  unfold upsertList
  rw [h]

theorem upsertList_inr (ns : List DataNode) (k v : Bytes) (j : Nat)
    (h : bsearch (fun i => cmpBytes (ns.getD i default).key k) 0 ns.length = .inr j) :
    upsertList ns k v = ns.take j ++ DataNode.from' k v :: ns.drop j := by
  unfold upsertList
  rw [h]

/-- Upsert preserves the order invariant. -/
theorem upsert_sorted (ns : List DataNode) (k v : Bytes) (hs : SortedNodes ns) :
    SortedNodes (upsertList ns k v) := by
  unfold upsertList
  rcases hbs : bsearch (fun i => cmpBytes (ns.getD i default).key k) 0 ns.length with i | j
  · -- replace in place: the key at `i` is already `k`
    obtain ⟨hi, hkey⟩ := bsearch_keys_inl ns k i hbs
    apply List.pairwise_iff_getElem.2
    intro a b ha hb hab
    rw [List.length_set] at ha hb
    have hsab := List.pairwise_iff_getElem.1 hs a b ha hb hab
    rw [List.getElem_set, List.getElem_set]
    by_cases hia : i = a
    · subst hia
      rw [if_pos rfl, if_neg (by omega)]
      show cmpBytes k (ns[b]).key = .lt
      have : (ns.getD i default).key = (ns[i]).key := by
        rw [List.getD_eq_getElem ns default ha]
      rw [← hkey, this]
      exact hsab
    · rw [if_neg hia]
      by_cases hib : i = b
      · subst hib
        rw [if_pos rfl]
        show cmpBytes (ns[a]).key k = .lt
        have : (ns.getD i default).key = (ns[i]).key := by
          rw [List.getD_eq_getElem ns default hb]
        rw [← hkey, this]
        exact hsab
      · rw [if_neg hib]
        exact hsab
  · -- insert at the search's insertion point
    obtain ⟨hj, hlt, hgt⟩ := bsearch_keys_inr ns hs k j hbs
    apply List.pairwise_append.2
    refine ⟨hs.sublist (List.take_sublist j ns), ?_, ?_⟩
    · apply List.pairwise_cons.2
      refine ⟨?_, hs.sublist (List.drop_sublist j ns)⟩
      intro b hb
      obtain ⟨ib, hib, hjb, hbeq⟩ := mem_drop_getD ns j b hb
      show cmpBytes (DataNode.from' k v).key b.key = .lt
      rw [from'_key, hbeq]
      rw [cmpBytes_swap_lt]
      exact hgt ib hjb hib
    · intro a ha b hb
      obtain ⟨ia, hia, hja, haeq⟩ := mem_take_getD ns j a ha
      rcases List.mem_cons.1 hb with hbm | hbd
      · subst hbm
        show cmpBytes a.key (DataNode.from' k v).key = .lt
        rw [from'_key, haeq]
        exact hlt ia hja
      · obtain ⟨ib, hib, hjb, hbeq⟩ := mem_drop_getD ns j b hbd
        show cmpBytes a.key b.key = .lt
        rw [haeq, hbeq]
        exact sorted_getD_lt ns hs ia ib (by omega) hib

theorem lookupKey_append_some (xs ys : List DataNode) (k : Bytes) (d : Bytes)
    (h : lookupKey xs k = some d) : lookupKey (xs ++ ys) k = some d := by
  induction xs with
  | nil => cases h
  | cons x xs ih =>
    rw [lookupKey_cons] at h
    split at h
    · next hx => rw [List.cons_append, lookupKey_cons, if_pos hx]; exact h
    · next hx => rw [List.cons_append, lookupKey_cons, if_neg hx]; exact ih h

theorem lookupKey_append_none (xs ys : List DataNode) (k : Bytes)
    (h : lookupKey xs k = none) : lookupKey (xs ++ ys) k = lookupKey ys k := by
  induction xs with
  | nil => rfl
  | cons x xs ih =>
    rw [lookupKey_cons] at h
    split at h
    · cases h
    · next hx => rw [List.cons_append, lookupKey_cons, if_neg hx]; exact ih h

theorem lookupKey_none_iff (ns : List DataNode) (k : Bytes) :
    lookupKey ns k = none ↔ ∀ n ∈ ns, n.key ≠ k := by
  induction ns with
  | nil => simp [lookupKey]
  | cons x xs ih =>
    rw [lookupKey_cons]
    by_cases hx : x.key = k
    · simp [hx]
    · rw [if_neg hx, ih]
      constructor
      · intro h n hn
        rcases List.mem_cons.1 hn with he | hm
        · subst he; exact hx
        · exact h n hm
      · intro h n hn
        exact h n (List.mem_cons_of_mem x hn)

theorem lookupKey_of_all_lt (ns : List DataNode) (k : Bytes)
    (h : ∀ n ∈ ns, cmpBytes n.key k = .lt) : lookupKey ns k = none :=
  (lookupKey_none_iff ns k).2 fun n hn => cmpBytes_ne_of_lt (h n hn)

/-- After an upsert the key maps to the new value. -/
theorem upsert_lookup_self (ns : List DataNode) (k v : Bytes) (hs : SortedNodes ns) :
    lookupKey (upsertList ns k v) k = some v := by
  rcases hbs : bsearch (fun i => cmpBytes (ns.getD i default).key k) 0 ns.length with i | j
  · obtain ⟨hi, hkey⟩ := bsearch_keys_inl ns k i hbs
    rw [upsertList_inl ns k v i hbs, set_eq_take_drop ns i _ hi]
    rw [lookupKey_append_none _ _ _ ?hnone]
    case hnone =>
      apply lookupKey_of_all_lt
      intro n hn
      obtain ⟨ia, hia, hja, haeq⟩ := mem_take_getD ns i n hn
      rw [haeq, ← hkey]
      exact sorted_getD_lt ns hs ia i hja hi
    rw [lookupKey_cons, if_pos (from'_key k v)]
    rfl
  · obtain ⟨hj, hlt, hgt⟩ := bsearch_keys_inr ns hs k j hbs
    rw [upsertList_inr ns k v j hbs]
    rw [lookupKey_append_none _ _ _ ?hnone]
    case hnone =>
      apply lookupKey_of_all_lt
      intro n hn
      obtain ⟨ia, hia, hja, haeq⟩ := mem_take_getD ns j n hn
      rw [haeq]
      exact hlt ia hja
    rw [lookupKey_cons, if_pos (from'_key k v)]
    rfl

/-- An upsert leaves the binding of every other key unchanged. -/
theorem upsert_lookup_other (ns : List DataNode) (k v k' : Bytes) (hs : SortedNodes ns)
    (hne : k' ≠ k) : lookupKey (upsertList ns k v) k' = lookupKey ns k' := by
  rcases hbs : bsearch (fun i => cmpBytes (ns.getD i default).key k) 0 ns.length with i | j
  · obtain ⟨hi, hkey⟩ := bsearch_keys_inl ns k i hbs
    rw [upsertList_inl ns k v i hbs, set_eq_take_drop ns i _ hi]
    conv_rhs => rw [list_decomp ns i hi]
    rcases hlk : lookupKey (ns.take i) k' with _ | d
    · rw [lookupKey_append_none _ _ _ hlk, lookupKey_append_none _ _ _ hlk]
      unfold lookupKey
      rw [if_neg (by rw [from'_key]; exact fun hc => hne hc.symm)]
      rw [if_neg (by rw [hkey]; exact fun hc => hne hc.symm)]
    · rw [lookupKey_append_some _ _ _ _ hlk, lookupKey_append_some _ _ _ _ hlk]
  · obtain ⟨hj, hlt, hgt⟩ := bsearch_keys_inr ns hs k j hbs
    rw [upsertList_inr ns k v j hbs]
    conv_rhs => rw [← List.take_append_drop j ns]
    rcases hlk : lookupKey (ns.take j) k' with _ | d
    · rw [lookupKey_append_none _ _ _ hlk, lookupKey_append_none _ _ _ hlk]
      unfold lookupKey
      rw [if_neg (by rw [from'_key]; exact fun hc => hne hc.symm)]
      cases List.drop j ns with
      | nil => rfl
      | cons m rest => rfl
    · rw [lookupKey_append_some _ _ _ _ hlk, lookupKey_append_some _ _ _ _ hlk]

/-- After an upsert exactly one node carries key `k`. -/
theorem upsert_count (ns : List DataNode) (k v : Bytes) (hs : SortedNodes ns) :
    countKey (upsertList ns k v) k = 1 := by
  have hcz : ∀ xs : List DataNode, (∀ n ∈ xs, n.key ≠ k) →
      xs.countP (fun n => decide (n.key = k)) = 0 := by
    intro xs hxs
    apply List.countP_eq_zero.2
    intro n hn
    simpa using hxs n hn
  rcases hbs : bsearch (fun i => cmpBytes (ns.getD i default).key k) 0 ns.length with i | j
  · obtain ⟨hi, hkey⟩ := bsearch_keys_inl ns k i hbs
    rw [upsertList_inl ns k v i hbs, countKey, set_eq_take_drop ns i _ hi,
      List.countP_append, List.countP_cons]
    rw [hcz _ (fun n hn => by
      obtain ⟨ia, hia, hja, haeq⟩ := mem_take_getD ns i n hn
      rw [haeq, ← hkey]
      exact cmpBytes_ne_of_lt (sorted_getD_lt ns hs ia i hja hi))]
    rw [hcz _ (fun n hn => by
      obtain ⟨ib, hib, hjb, hbeq⟩ := mem_drop_getD ns (i + 1) n hn
      rw [hbeq]
      apply cmpBytes_ne_of_gt
      rw [← cmpBytes_swap_lt, ← hkey]
      exact sorted_getD_lt ns hs i ib (by omega) hib)]
    simp [from'_key]
  · obtain ⟨hj, hlt, hgt⟩ := bsearch_keys_inr ns hs k j hbs
    rw [upsertList_inr ns k v j hbs, countKey, List.countP_append, List.countP_cons]
    rw [hcz _ (fun n hn => by
      obtain ⟨ia, hia, hja, haeq⟩ := mem_take_getD ns j n hn
      rw [haeq]
      exact cmpBytes_ne_of_lt (hlt ia hja))]
    rw [hcz _ (fun n hn => by
      obtain ⟨ib, hib, hjb, hbeq⟩ := mem_drop_getD ns j n hn
      rw [hbeq]
      exact cmpBytes_ne_of_gt (hgt ib hjb hib))]
    simp [from'_key]

/-- Upsert keeps every node well-formed (given a representable key and
value, as any fitting pair is). -/
theorem upsert_wf (ns : List DataNode) (k v : Bytes) (hwf : ∀ n ∈ ns, NodeWF n)
    (hk : k.length < 2 ^ 64) (hv : v.length < 2 ^ 64) :
    ∀ n ∈ upsertList ns k v, NodeWF n := by
  have hm : NodeWF (DataNode.from' k v) := by
    exact ⟨show (1 : Nat) < 4 by decide, rfl, rfl, hk, hv⟩
  rcases hbs : bsearch (fun i => cmpBytes (ns.getD i default).key k) 0 ns.length with i | j
  · rw [upsertList_inl ns k v i hbs]
    intro n hn
    rcases List.mem_or_eq_of_mem_set hn with hmem | he
    · exact hwf n hmem
    · subst he; exact hm
  · rw [upsertList_inr ns k v j hbs]
    intro n hn
    rcases List.mem_append.1 hn with hmem | hmem
    · exact hwf n (List.take_subset j ns hmem)
    · rcases List.mem_cons.1 hmem with he | hmem'
      · subst he; exact hm
      · exact hwf n (List.drop_subset j ns hmem')

/-! ## Correctness of `get` -/

theorem decodeAll_facts :
    ∀ (offs : List Nat) (data : Bytes) (ns : List DataNode),
      decodeAll data offs = some ns →
      offs.length = ns.length ∧
        ∀ i, i < offs.length →
          read_node_from_offset data (offs.getD i 0) = some (ns.getD i default) := by
  intro offs
  induction offs with
  | nil =>
    intro data ns h
    cases h
    exact ⟨rfl, fun i hi => by cases hi⟩
  | cons off rest ih =>
    intro data ns h
    unfold decodeAll at h
    rcases hr : read_node_from_offset data off with _ | n
    · rw [hr] at h; cases h
    · rw [hr] at h
      simp only [Option.some_bind] at h
      rcases hd : decodeAll data rest with _ | ms
      · rw [hd] at h; cases h
      · rw [hd] at h
        simp only [Option.map_some'] at h
        cases h
        obtain ⟨hl, hp⟩ := ih data ms hd
        refine ⟨by simpa using hl, ?_⟩
        intro i hi
        cases i with
        | zero => simpa using hr
        | succ i' =>
          simp only [List.getD_cons_succ]
          exact hp i' (by simpa using hi)

/-- `get` on a page whose slots decode to a sorted node list: a
`KeyNotFound` result means exactly that no node carries the key, and a
present key returns that node's data. -/
theorem get_spec (dp : DataPage) (ns : List DataNode) (k : Bytes)
    (hn : dp.nodesOf = some ns) (hs : SortedNodes ns) :
    (dp.get k = some (.error DBError.KeyNotFound) ↔ ∀ n ∈ ns, n.key ≠ k) ∧
    (∀ n, n ∈ ns → n.key = k → dp.get k = some (.ok n.data)) := by
  obtain ⟨hlen, hread⟩ := decodeAll_facts dp.offsets dp.data ns hn
  have hpt : ∀ i, i < dp.offsets.length →
      ((read_node_from_offset dp.data (dp.offsets.getD i 0)).map
        fun n => cmpBytes n.key k) = some (cmpBytes (ns.getD i default).key k) := by
    intro i hi
    rw [hread i hi]
    rfl
  have hM := bsearchM_eq _ (fun i => cmpBytes (ns.getD i default).key k)
    dp.offsets.length hpt
  have hgn : dp.get_node k =
      match bsearch (fun i => cmpBytes (ns.getD i default).key k) 0 dp.offsets.length with
      | .inl idx => (read_node_from_offset dp.data (dp.offsets.getD idx 0)).map Except.ok
      | .inr _ => some (Except.error DBError.KeyNotFound) := by
    unfold DataPage.get_node
    rw [hM]
    rfl
  rw [hlen] at hgn
  rcases hbs : bsearch (fun i => cmpBytes (ns.getD i default).key k) 0 ns.length with i | j
  · obtain ⟨hi, hkey⟩ := bsearch_keys_inl ns k i hbs
    rw [hbs] at hgn
    have hgn' : dp.get_node k = some (Except.ok (ns.getD i default)) := by
      rw [hgn]
      show Option.map Except.ok (read_node_from_offset dp.data (dp.offsets.getD i 0))
        = some (Except.ok (ns.getD i default))
      rw [hread i (by omega)]
      rfl
    have hget : dp.get k = some (Except.ok (ns.getD i default).data) := by
      unfold DataPage.get
      rw [hgn']
      rfl
    constructor
    · constructor
      · intro habs
        rw [hget] at habs
        cases habs
      · intro habs
        exfalso
        apply habs (ns.getD i default) _ hkey
        rw [List.getD_eq_getElem ns default hi]
        exact List.getElem_mem hi
    · intro n hmem hkn
      obtain ⟨i0, hi0, heq0⟩ := List.mem_iff_getElem.1 hmem
      have hgd0 : ns.getD i0 default = n := by
        rw [List.getD_eq_getElem ns default hi0, heq0]
      have hieq : i = i0 := by
        by_contra hne
        rcases Nat.lt_or_ge i i0 with hlt | hge
        · have := sorted_getD_lt ns hs i i0 hlt hi0
          rw [hkey, hgd0, hkn] at this
          rw [cmpBytes_refl] at this
          cases this
        · have hlt' : i0 < i := by omega
          have := sorted_getD_lt ns hs i0 i hlt' hi
          rw [hkey, hgd0, hkn] at this
          rw [cmpBytes_refl] at this
          cases this
      rw [hget, hieq, hgd0]
  · obtain ⟨hj, hlt, hgt⟩ := bsearch_keys_inr ns hs k j hbs
    rw [hbs] at hgn
    have hnokey : ∀ n ∈ ns, n.key ≠ k := by
      intro n hmem
      obtain ⟨i0, hi0, heq0⟩ := List.mem_iff_getElem.1 hmem
      have hgd0 : ns.getD i0 default = n := by
        rw [List.getD_eq_getElem ns default hi0, heq0]
      rcases Nat.lt_or_ge i0 j with hc | hc
      · have := hlt i0 hc
        rw [hgd0] at this
        exact cmpBytes_ne_of_lt this
      · have := hgt i0 hc hi0
        rw [hgd0] at this
        exact cmpBytes_ne_of_gt this
    have hget : dp.get k = some (Except.error DBError.KeyNotFound) := by
      unfold DataPage.get
      rw [hgn]
      rfl
    refine ⟨⟨fun _ => hnokey, fun _ => hget⟩, ?_⟩
    intro n hmem hkn
    exact absurd hkn (hnokey n hmem)

/-! ## Sequences of `put` operations -/

/-- Decoding an entire page: `DataPage::from` then decode every slot. -/
def nodesOfPage (p : Page) : Option (List DataNode) :=
  (DataPage.from' p).bind DataPage.nodesOf

theorem mem_sumPack (ns : List DataNode) (n : DataNode) (h : n ∈ ns) :
    n.pack.length ≤ sumPack ns := by
  induction ns with
  | nil => cases h
  | cons m ms ih =>
    rw [sumPack_cons]
    rcases List.mem_cons.1 h with he | hm
    · subst he; omega
    · have := ih hm; omega

theorem from'_mem_upsert (ns : List DataNode) (k v : Bytes) :
    DataNode.from' k v ∈ upsertList ns k v := by
  rcases hbs : bsearch (fun i => cmpBytes (ns.getD i default).key k) 0 ns.length with i | j
  · obtain ⟨hi, _⟩ := bsearch_keys_inl ns k i hbs
    rw [upsertList_inl ns k v i hbs, set_eq_take_drop ns i _ hi]
    exact List.mem_append.2 (Or.inr (List.mem_cons_self _ _))
  · rw [upsertList_inr ns k v j hbs]
    exact List.mem_append.2 (Or.inr (List.mem_cons_self _ _))

/-- A fitting upsert implies the new key and value are representable. -/
theorem Fits_upsert_keylen (ns : List DataNode) (k v : Bytes)
    (hfit : Fits (upsertList ns k v)) : k.length < 2 ^ 64 ∧ v.length < 2 ^ 64 := by
  have hmem := from'_mem_upsert ns k v
  have hle := mem_sumPack _ _ hmem
  have hp : (DataNode.from' k v).pack.length = 18 + k.length + v.length := by
    simp [DataNode.pack, DataNode.from']
    omega
  unfold Fits at hfit
  rw [PAGE_BUF_SIZE_eq] at hfit
  rw [hp] at hle
  constructor <;> omega

/-- Fold of upserts at the node-list level. -/
def applyOps (ns : List DataNode) (ops : List (Bytes × Bytes)) : List DataNode :=
  ops.foldl (fun acc kv => upsertList acc kv.1 kv.2) ns

/-- Chain of `put` operations, re-reading each freshly written page as
the source's tests do (`DataPage::from` after each `put`; pgno 0
throughout, exactly like `test_puts`). -/
def putSeq : Option Page → List (Bytes × Bytes) → Option Page
  | p?, [] => p?
  | p?, kv :: rest =>
    putSeq (p?.bind fun p => (DataPage.from' p).bind fun dp => dp.put 0 kv.1 kv.2) rest

/-- A leaf page built by a sequence of `put`s starting from the empty
page `write_new_page(0, &[])`. -/
def buildPage (ops : List (Bytes × Bytes)) : Option Page :=
  putSeq (write_new_page 0 []) ops

@[simp] theorem applyOps_nil (ns : List DataNode) : applyOps ns [] = ns := rfl

theorem applyOps_cons (ns : List DataNode) (kv : Bytes × Bytes) (ops : List (Bytes × Bytes)) :
    applyOps ns (kv :: ops) = applyOps (upsertList ns kv.1 kv.2) ops := rfl

theorem putSeq_spec :
    ∀ (ops : List (Bytes × Bytes)) (p : Page) (ns : List DataNode),
      nodesOfPage p = some ns →
      (∀ n ∈ ns, NodeWF n) → SortedNodes ns →
      (∀ i, i ≤ ops.length → 1 ≤ i → Fits (applyOps ns (ops.take i))) →
      ∃ p', putSeq (some p) ops = some p' ∧
        nodesOfPage p' = some (applyOps ns ops) ∧
        (∀ n ∈ applyOps ns ops, NodeWF n) ∧ SortedNodes (applyOps ns ops) := by
  intro ops
  induction ops with
  | nil =>
    intro p ns hn hwf hs _
    exact ⟨p, rfl, by simpa using hn, by simpa using hwf, by simpa using hs⟩
  | cons kv rest ih =>
    intro p ns hn hwf hs hF
    obtain ⟨k, v⟩ := kv
    have hfit1 : Fits (upsertList ns k v) := by
      have := hF 1 (by simp) (le_refl _)
      simpa [applyOps] using this
    obtain ⟨hk, hv⟩ := Fits_upsert_keylen ns k v hfit1
    have hwf' := upsert_wf ns k v hwf hk hv
    have hs' := upsert_sorted ns k v hs
    obtain ⟨p1, dp1, hwp, _, _, _, _, _, _, hfrom1, _, _, _, _, _, _, hnodes1⟩ :=
      write_new_page_spec 0 (upsertList ns k v) hwf' hfit1
    obtain ⟨dp0, hdp0, hdp0n⟩ : ∃ dp0, DataPage.from' p = some dp0 ∧
        dp0.nodesOf = some ns := by
      unfold nodesOfPage at hn
      rcases hf : DataPage.from' p with _ | dp0
      · rw [hf] at hn; cases hn
      · rw [hf] at hn
        exact ⟨dp0, rfl, hn⟩
    have hput : dp0.put 0 k v = some p1 := by
      unfold DataPage.put
      rw [hdp0n]
      simpa using hwp
    have hstep : putSeq (some p) ((k, v) :: rest) = putSeq (some p1) rest := by
      show putSeq ((some p).bind fun p => (DataPage.from' p).bind fun dp => dp.put 0 k v)
        rest = _
      rw [Option.some_bind, hdp0, Option.some_bind, hput]
    have hn1 : nodesOfPage p1 = some (upsertList ns k v) := by
      unfold nodesOfPage
      rw [hfrom1, Option.some_bind, hnodes1]
    have hF' : ∀ i, i ≤ rest.length → 1 ≤ i →
        Fits (applyOps (upsertList ns k v) (rest.take i)) := by
      intro i hi h1
      have := hF (i + 1) (by simpa using Nat.succ_le_succ hi) (by omega)
      rw [List.take_succ_cons, applyOps_cons] at this
      exact this
    obtain ⟨p', hseq, hnodes', hwf'', hs''⟩ := ih p1 (upsertList ns k v) hn1 hwf' hs' hF'
    refine ⟨p', ?_, ?_, ?_, ?_⟩
    · rw [hstep, hseq]
    · rw [applyOps_cons]; exact hnodes'
    · rw [applyOps_cons]; exact hwf''
    · rw [applyOps_cons]; exact hs''

/-! ## Branch routing -/

/-- `page.rs`: `Key` — a separator key or the sentinel ("no upper bound"). -/
inductive Key where
  | Normal (bytes : Bytes)
  | Sentinel
  deriving DecidableEq, Repr

/-- `page.rs`: `impl Ord for Key` — the sentinel compares greater than
everything, two normal keys compare byte-lexicographically. -/
def Key.cmp : Key → Key → Ordering
  | .Sentinel, .Sentinel => .eq
  | .Sentinel, _ => .gt
  | _, .Sentinel => .lt
  | .Normal a, .Normal b => cmpBytes a b

/-- A branch routing entry: inclusive upper bound and child page number
(`page.rs` `BranchNode`: `max_key`, `pgno`). -/
structure BranchNode where
  max_key : Key
  pgno : Nat
  deriving DecidableEq, Repr

instance : Inhabited BranchNode := ⟨⟨Key.Sentinel, 0⟩⟩

/-- Modelled from the spec: `BranchPage::get` is declared in
`src/btree_page.rs` but its body is `todo!()`.  §4.5: "lookup must find
the first node (in ascending key order) whose `max_key ≥ key` (treating
the sentinel as `+infinity`), not an exact match", returning that
node's child page number. -/
def branchGet (nodes : List BranchNode) (key : Bytes) : Except DBError Nat :=
  match nodes.find? (fun n => !decide (Key.cmp n.max_key (Key.Normal key) = .lt)) with
  | some n => .ok n.pgno
  | none => .error DBError.KeyNotFound

/-- `find?` returns the element at the first satisfying index. -/
theorem find?_first {α : Type} [Inhabited α] (p : α → Bool) :
    ∀ (l : List α) (i : Nat), i < l.length → p (l.getD i default) = true →
      (∀ j, j < i → p (l.getD j default) = false) →
      l.find? p = some (l.getD i default) := by
  intro l
  induction l with
  | nil => intro i hi; cases hi
  | cons x xs ih =>
    intro i hi hp hbefore
    cases i with
    | zero =>
      simp only [List.getD_cons_zero] at hp ⊢
      rw [List.find?_cons, hp]
    | succ i' =>
      have hx : p x = false := by
        have := hbefore 0 (by omega)
        simpa using this
      rw [List.find?_cons, hx]
      simp only [List.getD_cons_succ] at hp ⊢
      exact ih i' (by simpa using hi) hp
        (fun j hj => by simpa using hbefore (j + 1) (by omega))

/-! ## Helpers for the claim theorems -/

theorem getD_replicate_zero (n i : Nat) : (List.replicate n (0 : Nat)).getD i 0 = 0 := by
  by_cases h : i < n
  · rw [List.getD_eq_getElem _ 0 (by simpa using h)]
    simp
  · rw [List.getD_eq_default _ 0 (by simpa using h)]

/-- Destructuring any successful `write_new_page`: the loop state it
ends in and the header fields it stamps, with the `u16` truncations
discharged. -/
theorem write_new_page_some (pg : Nat) (ns : List DataNode) (p : Page)
    (h : write_new_page pg ns = some p) :
    ∃ buf' l' u',
      writeLoop ns (List.replicate PAGE_BUF_SIZE 0, 0, PAGE_BUF_SIZE) = some (buf', l', u') ∧
      p.pgno = pg ∧ p.pad = 0 ∧ p.flags = pageFlagAlive ∧
      p.lower = l' ∧ p.upper = u' ∧ p.data = buf' ∧
      l' = 2 * ns.length ∧ sumPack ns ≤ PAGE_BUF_SIZE ∧
      u' = PAGE_BUF_SIZE - sumPack ns ∧ buf'.length = PAGE_BUF_SIZE := by
  unfold write_new_page at h
  rcases hw : writeLoop ns (List.replicate PAGE_BUF_SIZE 0, 0, PAGE_BUF_SIZE)
    with _ | ⟨buf', l', u'⟩
  · rw [hw] at h; cases h
  · rw [hw] at h
    simp only [Option.map_some'] at h
    obtain ⟨h1, h2, h3, h4, h5⟩ := writeLoop_some ns _ _ _ _ _ _ hw
    have hrep : (List.replicate PAGE_BUF_SIZE (0 : Nat)).length = PAGE_BUF_SIZE := by simp
    rw [hrep] at h4 h5
    have hl16 : l' < 2 ^ 16 := by
      rcases h5 with h5 | h5
      · subst h5; simp [h1]
      · rw [PAGE_BUF_SIZE_eq] at h5; omega
    have hu16 : u' < 2 ^ 16 := by
      have h3' := h3
      rw [PAGE_BUF_SIZE_eq] at h3'
      omega
    cases h
    refine ⟨buf', l', u', rfl, rfl, ?_, rfl, ?_, ?_, rfl, by omega, h2, ?_, h4⟩
    · show (0 : Nat) % 2 ^ 16 = 0
      rfl
    · show l' % 2 ^ 16 = l'
      omega
    · show u' % 2 ^ 16 = u'
      omega
    · rw [PAGE_BUF_SIZE_eq]
      rw [PAGE_BUF_SIZE_eq] at h3
      omega

theorem lookupKey_some (ns : List DataNode) (k d : Bytes) (h : lookupKey ns k = some d) :
    ∃ n ∈ ns, n.key = k ∧ n.data = d := by
  induction ns with
  | nil => cases h
  | cons x xs ih =>
    rw [lookupKey_cons] at h
    split at h
    · next hx =>
      cases h
      exact ⟨x, List.mem_cons_self _ _, hx, rfl⟩
    · obtain ⟨n, hmem, hk, hd⟩ := ih h
      exact ⟨n, List.mem_cons_of_mem x hmem, hk, hd⟩

theorem sumPack_append (xs ys : List DataNode) :
    sumPack (xs ++ ys) = sumPack xs + sumPack ys := by
  simp [sumPack]

/-! ## The claims -/

/-- C5: For every key `k` and data `d`, packing the leaf node built from
`(k, d)` into bytes and then decoding those bytes at their stored offset
yields a node whose key equals `k` and whose data equals `d`
(encode/decode round-trip identity). -/
theorem C5_roundtrip (k d pre post : Bytes) (hk : k.length < 2 ^ 64)
    (hd : d.length < 2 ^ 64) :
    read_node_from_offset (pre ++ (DataNode.from' k d).pack ++ post) pre.length
      = some (DataNode.from' k d) := by
  apply read_node_pointwise _ _ ⟨show (1 : Nat) < 4 by decide, rfl, rfl, hk, hd⟩
  · simp only [List.append_assoc, List.length_append]
    omega
  · intro j hj
    rw [List.append_assoc]
    rw [List.getD_append_right _ _ 0 _ (by omega)]
    rw [List.getD_append _ _ 0 _ (by omega)]
    congr 1
    omega

theorem C5_roundtrip_witness :
    ([3, 200].length < 2 ^ 64) ∧ ([7, 8, 9].length < 2 ^ 64) ∧
    read_node_from_offset
      ([99] ++ (DataNode.from' [3, 200] [7, 8, 9]).pack ++ [42, 42]) 1
      = some (DataNode.from' [3, 200] [7, 8, 9]) :=
  ⟨by decide, by decide,
    C5_roundtrip [3, 200] [7, 8, 9] [99] [42, 42] (by decide) (by decide)⟩

/-- C6: the claim says decoding "either succeeds or fails with a typed
MalformedNode error" and that "no decode path panics".  In the code,
`read_node_from_offset` uses `unwrap`/`expect`: an out-of-bounds read or
an unrecognized flags word panics the process (here `none`), and
`DBError` has no `MalformedNode` variant at all.  This theorem evaluates
the decoder at the two failing inputs: a read past the region's end and
a flags word with an unrecognized bit (`5 = ALIVE | 0b100`). -/
theorem C6_decode_panics :
    read_node_from_offset (List.replicate 30 0) 29 = none ∧
    read_node_from_offset (5 :: List.replicate 30 0) 0 = none := by
  constructor
  · decide
  · decide

/-- C7: a branch page routes by upper bound: `get(key)` returns the
child page number of the leftmost separator (in ascending key order)
whose `max_key ≥ key`, the sentinel acting as `+infinity` — not an
exact match.  (`BranchPage::get` is `todo!()` in `src/btree_page.rs`;
`branchGet` is modelled from §4.5 of the spec, on top of the source's
`Key` ordering from `page.rs`.) -/
theorem C7_branch_routing (nodes : List BranchNode) (key : Bytes) (i : Nat)
    (hsorted : List.Pairwise (fun a b => Key.cmp a.max_key b.max_key = .lt) nodes)
    (hi : i < nodes.length)
    (hge : Key.cmp (nodes.getD i default).max_key (Key.Normal key) ≠ .lt)
    (hleft : ∀ j, j < i → Key.cmp (nodes.getD j default).max_key (Key.Normal key) = .lt) :
    branchGet nodes key = .ok (nodes.getD i default).pgno := by
  unfold branchGet
  rw [find?_first _ nodes i hi
    (by simp only [Bool.not_eq_true', decide_eq_false_iff_not]; exact hge)
    (fun j hj => by
      simp only [Bool.not_eq_false', decide_eq_true_eq]
      exact hleft j hj)]

/-- The spec's routing scenario: separators `["d", "m"]` plus sentinel,
children `[1, 2, 3]`. -/
def branchScenario : List BranchNode :=
  [⟨Key.Normal [100], 1⟩, ⟨Key.Normal [109], 2⟩, ⟨Key.Sentinel, 3⟩]

theorem C7_branch_routing_witness :
    branchGet branchScenario [98] = .ok 1 ∧
    branchGet branchScenario [100] = .ok 1 ∧
    branchGet branchScenario [101] = .ok 2 ∧
    branchGet branchScenario [122] = .ok 3 :=
  ⟨C7_branch_routing branchScenario [98] 0 (by decide) (by decide) (by decide)
      (fun j hj => absurd hj (by omega)),
    C7_branch_routing branchScenario [100] 0 (by decide) (by decide) (by decide)
      (fun j hj => absurd hj (by omega)),
    C7_branch_routing branchScenario [101] 1 (by decide) (by decide) (by decide)
      (fun j hj => by interval_cases j <;> decide),
    C7_branch_routing branchScenario [122] 2 (by decide) (by decide) (by decide)
      (fun j hj => by interval_cases j <;> decide)⟩

/-- The oversized single node of the C9 counterexample: packed size
`2 + 8 + 8 + 2031 + 2031 = 4080` — together with its 2-byte slot this
exceeds the 4080-byte body. -/
def oversizedNode : DataNode :=
  DataNode.from' (List.replicate 2031 97) (List.replicate 2031 98)

theorem get_size_from' (k d : Bytes) :
    (DataNode.from' k d).get_size = k.length + d.length + 2 * USIZE_N + 2 := rfl

theorem oversizedNode_pack_length : oversizedNode.pack.length = 4080 := by
  rw [pack_length _ rfl rfl]
  unfold oversizedNode
  rw [get_size_from', List.length_replicate, List.length_replicate]
  rfl

/-- C9 counterexample: the claim says an overflowing node list makes
page construction "raise the typed WriteFailed error".  It does not:
`write_new_page` performs no capacity check and returns no error — on
this oversized list it silently returns a page whose slot write has
overwritten the record's first bytes and whose header is corrupt
(`lower = 2 > upper = 0`). -/
theorem C9_counterexample :
    PAGE_BUF_SIZE < 2 * ([oversizedNode] : List DataNode).length + sumPack [oversizedNode] ∧
    (write_new_page 0 [oversizedNode]).map (fun p => (p.lower, p.upper)) = some (2, 0) := by
  have hpl := oversizedNode_pack_length
  constructor
  · rw [sumPack_cons, sumPack_nil, hpl, PAGE_BUF_SIZE_eq]
    simp
  · unfold write_new_page
    show ((writeLoop [oversizedNode]
      (List.replicate PAGE_BUF_SIZE 0, 0, PAGE_BUF_SIZE)).map fun st =>
        Page.from' 0 0 pageFlagAlive st.2.1 st.2.2 st.1).map (fun p => (p.lower, p.upper))
      = some (2, 0)
    unfold writeLoop
    have hreplen : (List.replicate PAGE_BUF_SIZE (0 : Nat)).length = PAGE_BUF_SIZE := by
      rw [List.length_replicate]
    rw [if_pos ⟨by rw [hpl, PAGE_BUF_SIZE_eq], by rw [hreplen],
      by rw [hreplen, PAGE_BUF_SIZE_eq]; omega⟩]
    have hz : PAGE_BUF_SIZE - oversizedNode.pack.length = 0 := by
      rw [hpl, PAGE_BUF_SIZE_eq]
    rw [hz]
    show some ((2 : Nat) % 2 ^ 16, (0 : Nat) % 2 ^ 16) = some (2, 0)
    rfl

/-- C9 (amended): `write_new_page` never raises `WriteFailed` — `DBError`
has no such variant and page construction returns no error value; an
overflowing list either silently yields a corrupt page or panics on
buffer underflow.  The `has_space` boundary behaviour holds as claimed:
a node whose packed size exactly equals `upper - lower` is rejected
(strict inequality), one byte smaller is accepted. -/
theorem C9_has_space_boundary (dp : DataPage) (n : DataNode) :
    (n.get_size = dp.upper - dp.lower → dp.has_space n = false) ∧
    (n.get_size + 1 = dp.upper - dp.lower → dp.has_space n = true) := by
  unfold DataPage.has_space
  constructor
  · intro h
    rw [← h]
    simp
  · intro h
    rw [← h]
    simp

theorem C9_has_space_boundary_witness :
    ((DataNode.from' [1] [2]).get_size = (20 : Nat) - 0 →
      DataPage.has_space ⟨0, 1, 0, 20, [], []⟩ (DataNode.from' [1] [2]) = false) ∧
    DataPage.has_space ⟨0, 1, 0, 20, [], []⟩ (DataNode.from' [1] [2]) = false ∧
    DataPage.has_space ⟨0, 1, 0, 21, [], []⟩ (DataNode.from' [1] [2]) = true :=
  ⟨(C9_has_space_boundary ⟨0, 1, 0, 20, [], []⟩ (DataNode.from' [1] [2])).1,
    (C9_has_space_boundary ⟨0, 1, 0, 20, [], []⟩ (DataNode.from' [1] [2])).1 (by decide),
    (C9_has_space_boundary ⟨0, 1, 0, 21, [], []⟩ (DataNode.from' [1] [2])).2 (by decide)⟩

/-- C10: for every node list given to page construction, the header of
the resulting page is fully determined by the list alone: flags exactly
`ALIVE`, pad `0`, `lower = 2 · #nodes`, `upper = 4080 − Σ packed sizes`
(regardless of any source page the nodes came from — `write_new_page`
takes only the list). -/
theorem C10_header_determined (pg : Nat) (ns : List DataNode) (p : Page)
    (h : write_new_page pg ns = some p) :
    p.flags = pageFlagAlive ∧ p.pad = 0 ∧ p.lower = 2 * ns.length ∧
      p.upper = PAGE_BUF_SIZE - sumPack ns := by
  obtain ⟨buf', l', u', _, _, hpad, hflags, hlow, hup, _, hl, _, hu, _⟩ :=
    write_new_page_some pg ns p h
  exact ⟨hflags, hpad, by rw [hlow, hl], by rw [hup, hu]⟩

theorem C10_header_determined_witness :
    (write_new_page 7 [DataNode.from' [1] [2]]).map
        (fun p => (p.flags, p.pad, p.lower, p.upper)) =
      some (pageFlagAlive, 0, 2, PAGE_BUF_SIZE - sumPack [DataNode.from' [1] [2]]) := by
  obtain ⟨p, dp, hwp, _⟩ :=
    write_new_page_spec 7 [DataNode.from' [1] [2]] (by decide) (by decide)
  obtain ⟨h1, h2, h3, h4⟩ := C10_header_determined 7 [DataNode.from' [1] [2]] p hwp
  rw [hwp]
  simp only [Option.map_some']
  rw [h1, h2, h3, h4]
  simp

/-- C4: `get(k)` returns `Err(KeyNotFound)` iff no node on the page has
key byte-for-byte equal to `k`, and when a node with key `k` exists it
returns that node's data bytes — over any page whose slots decode and
satisfy the slot-order invariant (§3), as every engine-built page does.
In particular a page that never received `put(k, _)` has no node with
key `k`, so `get(k)` errors. -/
theorem C4_exact_match_lookup (dp : DataPage) (ns : List DataNode) (k : Bytes)
    (hn : dp.nodesOf = some ns) (hs : SortedNodes ns) :
    (dp.get k = some (.error DBError.KeyNotFound) ↔ ∀ n ∈ ns, n.key ≠ k) ∧
    (∀ n ∈ ns, n.key = k → dp.get k = some (.ok n.data)) :=
  get_spec dp ns k hn hs

/-- A one-node page fixture: slot 0 points at the packed node
`(key = [3], data = [7])`. -/
def dpOne : DataPage := ⟨0, 1, 2, 4059, [0], (DataNode.from' [3] [7]).pack⟩

theorem C4_exact_match_lookup_witness :
    dpOne.get [5] = some (.error DBError.KeyNotFound) ∧
    dpOne.get [3] = some (.ok [7]) := by
  constructor
  · exact (C4_exact_match_lookup dpOne [DataNode.from' [3] [7]] [5] (by decide)
      (by decide)).1.2 (by decide)
  · exact (C4_exact_match_lookup dpOne [DataNode.from' [3] [7]] [3] (by decide)
      (by decide)).2 (DataNode.from' [3] [7]) (by decide) rfl

/-- C2: `put(k, v1)` then `put(k, v2)` (each freshly decoded page fed to
the next put, as in the source's tests) leaves exactly one node with key
`k` on the resulting page, `get(k)` returns `v2`, and the binding of
every other key is unchanged.  The capacity hypotheses are the `Fits`
regime the caller guarantees via `has_space` (§7). -/
theorem C2_upsert_overwrite (dp : DataPage) (ns : List DataNode) (pg1 pg2 : Nat)
    (k v1 v2 : Bytes)
    (hn : dp.nodesOf = some ns) (hwf : ∀ n ∈ ns, NodeWF n) (hs : SortedNodes ns)
    (hfit1 : Fits (upsertList ns k v1))
    (hfit2 : Fits (upsertList (upsertList ns k v1) k v2)) :
    ∃ p1 dp1 p2 dp2,
      dp.put pg1 k v1 = some p1 ∧ DataPage.from' p1 = some dp1 ∧
      dp1.put pg2 k v2 = some p2 ∧ DataPage.from' p2 = some dp2 ∧
      dp2.nodesOf = some (upsertList (upsertList ns k v1) k v2) ∧
      countKey (upsertList (upsertList ns k v1) k v2) k = 1 ∧
      dp2.get k = some (.ok v2) ∧
      (∀ k', k' ≠ k →
        lookupKey (upsertList (upsertList ns k v1) k v2) k' = lookupKey ns k') := by
  obtain ⟨hk1, hv1⟩ := Fits_upsert_keylen ns k v1 hfit1
  have hwf1 := upsert_wf ns k v1 hwf hk1 hv1
  have hs1 := upsert_sorted ns k v1 hs
  obtain ⟨p1, dp1, hwp1, _, _, _, _, _, _, hfrom1, _, _, _, _, _, _, hnodes1⟩ :=
    write_new_page_spec pg1 (upsertList ns k v1) hwf1 hfit1
  obtain ⟨hk2, hv2⟩ := Fits_upsert_keylen _ k v2 hfit2
  have hwf2 := upsert_wf _ k v2 hwf1 hk2 hv2
  have hs2 := upsert_sorted _ k v2 hs1
  obtain ⟨p2, dp2, hwp2, _, _, _, _, _, _, hfrom2, _, _, _, _, _, _, hnodes2⟩ :=
    write_new_page_spec pg2 (upsertList (upsertList ns k v1) k v2) hwf2 hfit2
  have hput1 : dp.put pg1 k v1 = some p1 := by
    unfold DataPage.put
    rw [hn]
    simpa using hwp1
  have hput2 : dp1.put pg2 k v2 = some p2 := by
    unfold DataPage.put
    rw [hnodes1]
    simpa using hwp2
  obtain ⟨n2, hmem2, hkey2, hdata2⟩ :=
    lookupKey_some _ _ _ (upsert_lookup_self (upsertList ns k v1) k v2 hs1)
  have hget : dp2.get k = some (.ok v2) := by
    have := (get_spec dp2 _ k hnodes2 hs2).2 n2 hmem2 hkey2
    rw [hdata2] at this
    exact this
  refine ⟨p1, dp1, p2, dp2, hput1, hfrom1, hput2, hfrom2, hnodes2,
    upsert_count _ k v2 hs1, hget, ?_⟩
  intro k' hk'
  rw [upsert_lookup_other _ k v2 k' hs1 hk', upsert_lookup_other ns k v1 k' hs hk']

/-- The empty page as a `DataPage` view: no slots, empty body view. -/
def dpEmpty : DataPage := ⟨0, 1, 0, 4080, [], []⟩

theorem C2_upsert_overwrite_witness :
    dpEmpty.nodesOf = some [] ∧ SortedNodes ([] : List DataNode) ∧
    Fits (upsertList [] [1] [7]) ∧
    Fits (upsertList (upsertList [] [1] [7]) [1] [9]) ∧
    countKey (upsertList (upsertList [] [1] [7]) [1] [9]) [1] = 1 := by
  obtain ⟨p1, dp1, p2, dp2, _, _, _, _, _, h6, _, _⟩ :=
    C2_upsert_overwrite dpEmpty [] 0 0 [1] [7] [9] (by decide) (by decide) (by decide)
      (by decide) (by decide)
  exact ⟨by decide, by decide, by decide, by decide, h6⟩

/-- C3: for a page holding node list `ns` in key order, `split` yields
pages `(L, R)` decoding to exactly `ns[0 .. len/2)` and `ns[len/2 ..)`:
the halves have sizes `len/2` and `len − len/2`, every key of `L` is
strictly below every key of `R`, their key lists concatenate to the key
list of `ns` (so the key sets unite to `ns`'s), and the key sets are
disjoint. -/
theorem C3_split_halves (dp : DataPage) (ns : List DataNode) (pl pr : Nat)
    (hn : dp.nodesOf = some ns) (hwf : ∀ n ∈ ns, NodeWF n) (hs : SortedNodes ns)
    (hfit : Fits ns) :
    ∃ L R dpL dpR,
      dp.split pl pr = some (L, R) ∧
      DataPage.from' L = some dpL ∧ dpL.nodesOf = some (ns.take (ns.length / 2)) ∧
      DataPage.from' R = some dpR ∧ dpR.nodesOf = some (ns.drop (ns.length / 2)) ∧
      (ns.take (ns.length / 2)).length = ns.length / 2 ∧
      (ns.drop (ns.length / 2)).length = ns.length - ns.length / 2 ∧
      (∀ a ∈ ns.take (ns.length / 2), ∀ b ∈ ns.drop (ns.length / 2), keyLt a b) ∧
      ((ns.take (ns.length / 2)).map DataNode.key
          ++ (ns.drop (ns.length / 2)).map DataNode.key = ns.map DataNode.key) ∧
      (∀ x ∈ (ns.take (ns.length / 2)).map DataNode.key,
        x ∉ (ns.drop (ns.length / 2)).map DataNode.key) := by
  have hmid : ns.length / 2 ≤ ns.length := Nat.div_le_self _ _
  have hsum : sumPack (ns.take (ns.length / 2)) + sumPack (ns.drop (ns.length / 2))
      = sumPack ns := by
    rw [← sumPack_append, List.take_append_drop]
  have hlenT : (ns.take (ns.length / 2)).length = ns.length / 2 := by
    rw [List.length_take]
    omega
  have hlenD : (ns.drop (ns.length / 2)).length = ns.length - ns.length / 2 :=
    List.length_drop _ _
  have hfitL : Fits (ns.take (ns.length / 2)) := by
    unfold Fits at hfit ⊢
    rw [hlenT]
    omega
  have hfitR : Fits (ns.drop (ns.length / 2)) := by
    unfold Fits at hfit ⊢
    rw [hlenD]
    omega
  obtain ⟨L, dpL, hwpL, _, _, _, _, _, _, hfromL, _, _, _, _, _, _, hnodesL⟩ :=
    write_new_page_spec pl (ns.take (ns.length / 2))
      (fun n h => hwf n (List.take_subset _ ns h)) hfitL
  obtain ⟨R, dpR, hwpR, _, _, _, _, _, _, hfromR, _, _, _, _, _, _, hnodesR⟩ :=
    write_new_page_spec pr (ns.drop (ns.length / 2))
      (fun n h => hwf n (List.drop_subset _ ns h)) hfitR
  have hsplit : dp.split pl pr = some (L, R) := by
    unfold DataPage.split
    rw [hn]
    simp only [Option.some_bind]
    rw [hwpL]
    simp only [Option.some_bind]
    rw [hwpR]
    rfl
  refine ⟨L, R, dpL, dpR, hsplit, hfromL, hnodesL, hfromR, hnodesR, hlenT, hlenD,
    ?_, ?_, ?_⟩
  · intro a ha b hb
    obtain ⟨ia, hia, hja, haeq⟩ := mem_take_getD ns _ a ha
    obtain ⟨ib, hib, hjb, hbeq⟩ := mem_drop_getD ns _ b hb
    show cmpBytes a.key b.key = .lt
    rw [haeq, hbeq]
    exact sorted_getD_lt ns hs ia ib (by omega) hib
  · rw [← List.map_append, List.take_append_drop]
  · intro x hx hx'
    obtain ⟨a, ha, haeq⟩ := List.mem_map.1 hx
    obtain ⟨b, hb, hbeq⟩ := List.mem_map.1 hx'
    obtain ⟨ia, hia, hja, haeq'⟩ := mem_take_getD ns _ a ha
    obtain ⟨ib, hib, hjb, hbeq'⟩ := mem_drop_getD ns _ b hb
    have hlt : cmpBytes a.key b.key = .lt := by
      rw [haeq', hbeq']
      exact sorted_getD_lt ns hs ia ib (by omega) hib
    exact cmpBytes_ne_of_lt hlt (by rw [haeq, hbeq])

/-- A two-node page fixture: slots `[0, 21]` over the two packed nodes
`([1] ↦ [5])` and `([2] ↦ [6])` (20 bytes each), in ascending key order. -/
def dpTwo : DataPage :=
  ⟨0, 1, 4, 4040, [0, 20], (DataNode.from' [1] [5]).pack ++ (DataNode.from' [2] [6]).pack⟩

theorem C3_split_halves_witness :
    dpTwo.nodesOf = some [DataNode.from' [1] [5], DataNode.from' [2] [6]] ∧
    SortedNodes [DataNode.from' [1] [5], DataNode.from' [2] [6]] ∧
    Fits [DataNode.from' [1] [5], DataNode.from' [2] [6]] ∧
    (dpTwo.split 1 2).isSome = true := by
  obtain ⟨L, R, dpL, dpR, hsplit, _⟩ :=
    C3_split_halves dpTwo [DataNode.from' [1] [5], DataNode.from' [2] [6]] 1 2
      (by decide) (by decide) (by decide) (by decide)
  refine ⟨by decide, by decide, by decide, ?_⟩
  rw [hsplit]
  rfl

/-- All prefixes of a `put` sequence stay within the body capacity (the
regime in which callers are required to keep pages via `has_space`). -/
def allPrefixesFit (ops : List (Bytes × Bytes)) : Prop :=
  ∀ i, i ≤ ops.length → Fits (applyOps [] (ops.take i))

instance (ops : List (Bytes × Bytes)) : Decidable (allPrefixesFit ops) := by
  unfold allPrefixesFit
  infer_instance

/-- C1: every leaf page built by a sequence of `put` operations starting
from the empty page decodes, slot by slot in slot order, to nodes whose
keys are strictly ascending in byte-lexicographic order — in particular
no two slots hold equal keys. -/
theorem C1_order_invariant (ops : List (Bytes × Bytes)) (hcap : allPrefixesFit ops) :
    ∃ p ns, buildPage ops = some p ∧ nodesOfPage p = some ns ∧
      ns = applyOps [] ops ∧ List.Pairwise keyLt ns := by
  obtain ⟨p0, dp0, hwp0, _, _, _, _, _, _, hfrom0, _, _, _, _, _, _, hnodes0⟩ :=
    write_new_page_spec 0 [] (fun n h => absurd h (List.not_mem_nil n))
      (by unfold Fits; simp)
  have hn0 : nodesOfPage p0 = some [] := by
    unfold nodesOfPage
    rw [hfrom0, Option.some_bind, hnodes0]
  obtain ⟨p', hseq, hnodes', hwf', hs'⟩ :=
    putSeq_spec ops p0 [] hn0 (fun n h => absurd h (List.not_mem_nil n))
      List.Pairwise.nil (fun i hi _ => hcap i hi)
  refine ⟨p', applyOps [] ops, ?_, hnodes', rfl, hs'⟩
  unfold buildPage
  rw [hwp0]
  exact hseq

theorem C1_order_invariant_witness :
    allPrefixesFit [(([2] : Bytes), ([10] : Bytes)), ([1], [20]), ([2], [30])] ∧
    (buildPage [(([2] : Bytes), ([10] : Bytes)), ([1], [20]), ([2], [30])]).isSome = true ∧
    List.Pairwise keyLt
      (applyOps [] [(([2] : Bytes), ([10] : Bytes)), ([1], [20]), ([2], [30])]) := by
  have hcap : allPrefixesFit [(([2] : Bytes), ([10] : Bytes)), ([1], [20]), ([2], [30])] := by
    decide
  obtain ⟨p, ns, h1, h2, h3, h4⟩ := C1_order_invariant _ hcap
  refine ⟨hcap, ?_, h3 ▸ h4⟩
  rw [h1]
  rfl

/-- Any page `write_new_page` returns was assembled in a brand-new
zeroed buffer: the free gap between its slot array and its record
region still holds the zero bytes of the fresh `[0u8; PAGE_BUF_SIZE]`,
never bytes of any pre-existing page. -/
theorem write_new_page_gap_zero (pg : Nat) (ns : List DataNode) (p : Page)
    (h : write_new_page pg ns = some p) :
    ∀ i, p.lower ≤ i → i < p.upper → p.data.getD i 0 = 0 := by
  obtain ⟨buf', l', u', hw, _, _, _, hplow, hpup, hpdata, _⟩ :=
    write_new_page_some pg ns p h
  obtain ⟨_, _, hun⟩ := writeLoop_untouched ns _ _ _ _ _ _ hw
  intro i h1 h2
  rw [hplow] at h1
  rw [hpup] at h2
  rw [hpdata, hun i h1 h2]
  exact getD_replicate_zero _ _

/-- C8: `put` and `split` never depend on or mutate the source page's
byte buffer: in this pure embedding the source page value is untouched
by construction, the result is a function of the decoded node list alone
(any page decoding to the same nodes yields the identical result), and
the result's bytes come from a brand-new zeroed buffer — its free gap is
all zeros, never residue of the source page. -/
theorem C8_copy_on_write (dp : DataPage) (pg pl pr : Nat) (k v : Bytes) :
    (∀ p : Page, dp.put pg k v = some p →
      (∀ dp2 : DataPage, dp2.nodesOf = dp.nodesOf → dp2.put pg k v = some p) ∧
      (∀ i, p.lower ≤ i → i < p.upper → p.data.getD i 0 = 0)) ∧
    (∀ L R : Page, dp.split pl pr = some (L, R) →
      (∀ dp2 : DataPage, dp2.nodesOf = dp.nodesOf → dp2.split pl pr = some (L, R)) ∧
      (∀ i, L.lower ≤ i → i < L.upper → L.data.getD i 0 = 0) ∧
      (∀ i, R.lower ≤ i → i < R.upper → R.data.getD i 0 = 0)) := by
  constructor
  · intro p hput
    rcases hns : dp.nodesOf with _ | ns
    · unfold DataPage.put at hput
      rw [hns] at hput
      cases hput
    · unfold DataPage.put at hput
      rw [hns] at hput
      simp only [Option.some_bind] at hput
      refine ⟨?_, write_new_page_gap_zero _ _ _ hput⟩
      intro dp2 h2
      unfold DataPage.put
      rw [h2]
      simp only [Option.some_bind]
      exact hput
  · intro L R hsplit
    rcases hns : dp.nodesOf with _ | ns
    · unfold DataPage.split at hsplit
      rw [hns] at hsplit
      cases hsplit
    · unfold DataPage.split at hsplit
      rw [hns] at hsplit
      simp only [Option.some_bind] at hsplit
      rcases hL : write_new_page pl (ns.take (ns.length / 2)) with _ | L'
      · rw [hL] at hsplit
        cases hsplit
      · rw [hL] at hsplit
        simp only [Option.some_bind] at hsplit
        rcases hR : write_new_page pr (ns.drop (ns.length / 2)) with _ | R'
        · rw [hR] at hsplit
          cases hsplit
        · rw [hR] at hsplit
          simp only [Option.map_some'] at hsplit
          have hLL : L' = L := congrArg Prod.fst (Option.some.inj hsplit)
          have hRR : R' = R := congrArg Prod.snd (Option.some.inj hsplit)
          subst hLL
          subst hRR
          refine ⟨?_, write_new_page_gap_zero _ _ _ hL, write_new_page_gap_zero _ _ _ hR⟩
          intro dp2 h2
          unfold DataPage.split
          rw [h2]
          simp only [Option.some_bind]
          rw [hL]
          simp only [Option.some_bind]
          rw [hR]
          rfl

theorem C8_copy_on_write_witness :
    (dpEmpty.put 5 [1] [2]).isSome = true ∧
    ((dpEmpty.put 5 [1] [2]).map fun p => p.data.getD 100 0) = some 0 := by
  obtain ⟨p, dp', hwp, _⟩ :=
    write_new_page_spec 5 (upsertList [] [1] [2]) (by decide) (by decide)
  have hput : dpEmpty.put 5 [1] [2] = some p := by
    unfold DataPage.put
    rw [show dpEmpty.nodesOf = some [] from by decide]
    simp only [Option.some_bind]
    exact hwp
  obtain ⟨_, hgap⟩ := (C8_copy_on_write dpEmpty 5 0 0 [1] [2]).1 p hput
  obtain ⟨buf', l', u', _, _, _, _, hplow, hpup, _, hl', _, hu', _⟩ :=
    write_new_page_some 5 (upsertList [] [1] [2]) p hwp
  have hlen1 : (upsertList ([] : List DataNode) [1] [2]).length = 1 := by decide
  have hsum1 : sumPack (upsertList ([] : List DataNode) [1] [2]) = 20 := by decide
  have hlow : p.lower = 2 := by
    rw [hplow, hl', hlen1]
  have hup : p.upper = 4060 := by
    rw [hpup, hu', hsum1, PAGE_BUF_SIZE_eq]
  refine ⟨by rw [hput]; rfl, ?_⟩
  rw [hput]
  simp only [Option.map_some']
  rw [hgap 100 (by omega) (by omega)]

/-! ## The C1 counterexample: an overflowing `put` sequence -/

theorem getD_replicate_val (n a i : Nat) (h : i < n) :
    (List.replicate n a).getD i 0 = a := by
  rw [List.getD_eq_getElem _ 0 (by simpa using h)]
  simp

/-- Three 1340-byte values: each node packs to `1359` bytes, so three
nodes total `4077` bytes and, with the 6-byte slot array, overflow the
4080-byte body by 3 bytes. -/
def ovVal : Bytes := List.replicate 1340 7

def ovN (k : Nat) : DataNode := DataNode.from' [k] ovVal

def overflowOps : List (Bytes × Bytes) := [([1], ovVal), ([2], ovVal), ([3], ovVal)]

theorem ovN_pack_length (k : Nat) : (ovN k).pack.length = 1359 := by
  rw [pack_length _ rfl rfl]
  unfold ovN
  rw [get_size_from']
  unfold ovVal
  rw [List.length_replicate]
  rfl

theorem ovN_wf (k : Nat) : NodeWF (ovN k) := by
  refine ⟨show (1 : Nat) < 4 by decide, rfl, rfl, show (1 : Nat) < 2 ^ 64 by decide, ?_⟩
  show ovVal.length < 2 ^ 64
  unfold ovVal
  rw [List.length_replicate]
  decide

/-- The three buffer states of the final (overflowing) rebuild. -/
def ovB1 : Bytes :=
  writeRange (writeRange (List.replicate PAGE_BUF_SIZE 0) 2721 (ovN 1).pack) 0 (u16le 2721)

def ovB2 : Bytes := writeRange (writeRange ovB1 1362 (ovN 2).pack) 2 (u16le 1362)

def ovB3 : Bytes := writeRange (writeRange ovB2 3 (ovN 3).pack) 4 (u16le 3)

theorem replicate_buf_length : (List.replicate PAGE_BUF_SIZE (0 : Nat)).length = 4080 := by
  rw [List.length_replicate, PAGE_BUF_SIZE_eq]

theorem ovA1_length :
    (writeRange (List.replicate PAGE_BUF_SIZE 0) 2721 (ovN 1).pack).length = 4080 := by
  rw [writeRange_length _ _ _ (by rw [ovN_pack_length, replicate_buf_length])]
  exact replicate_buf_length

theorem ovB1_length : ovB1.length = 4080 := by
  unfold ovB1
  rw [writeRange_length _ _ _ (by rw [u16le_length, ovA1_length]; omega)]
  exact ovA1_length

theorem ovA2_length : (writeRange ovB1 1362 (ovN 2).pack).length = 4080 := by
  rw [writeRange_length _ _ _ (by rw [ovN_pack_length, ovB1_length]; omega)]
  exact ovB1_length

theorem ovB2_length : ovB2.length = 4080 := by
  unfold ovB2
  rw [writeRange_length _ _ _ (by rw [u16le_length, ovA2_length]; omega)]
  exact ovA2_length

theorem ovA3_length : (writeRange ovB2 3 (ovN 3).pack).length = 4080 := by
  rw [writeRange_length _ _ _ (by rw [ovN_pack_length, ovB2_length]; omega)]
  exact ovB2_length

theorem ovB3_length : ovB3.length = 4080 := by
  unfold ovB3
  rw [writeRange_length _ _ _ (by rw [u16le_length, ovA3_length]; omega)]
  exact ovA3_length

theorem ovB1_getD (i : Nat) :
    ovB1.getD i 0 =
      if 0 ≤ i ∧ i < 2 then (u16le 2721).getD (i - 0) 0
      else if 2721 ≤ i ∧ i < 4080 then (ovN 1).pack.getD (i - 2721) 0
      else (List.replicate PAGE_BUF_SIZE (0 : Nat)).getD i 0 := by
  unfold ovB1
  rw [getD_writeRange _ _ _ _ (by rw [u16le_length, ovA1_length]; omega)]
  rw [getD_writeRange _ _ _ _ (by rw [ovN_pack_length, replicate_buf_length])]
  rw [ovN_pack_length, u16le_length]

theorem ovB2_getD (i : Nat) :
    ovB2.getD i 0 =
      if 2 ≤ i ∧ i < 4 then (u16le 1362).getD (i - 2) 0
      else if 1362 ≤ i ∧ i < 2721 then (ovN 2).pack.getD (i - 1362) 0
      else ovB1.getD i 0 := by
  unfold ovB2
  rw [getD_writeRange _ _ _ _ (by rw [u16le_length, ovA2_length]; omega)]
  rw [getD_writeRange _ _ _ _ (by rw [ovN_pack_length, ovB1_length]; omega)]
  rw [ovN_pack_length, u16le_length]

theorem ovB3_getD (i : Nat) :
    ovB3.getD i 0 =
      if 4 ≤ i ∧ i < 6 then (u16le 3).getD (i - 4) 0
      else if 3 ≤ i ∧ i < 1362 then (ovN 3).pack.getD (i - 3) 0
      else ovB2.getD i 0 := by
  unfold ovB3
  rw [getD_writeRange _ _ _ _ (by rw [u16le_length, ovA3_length]; omega)]
  rw [getD_writeRange _ _ _ _ (by rw [ovN_pack_length, ovB2_length]; omega)]
  rw [ovN_pack_length, u16le_length]

theorem ov_arith1 : PAGE_BUF_SIZE - (ovN 1).pack.length = 2721 := by
  rw [ovN_pack_length, PAGE_BUF_SIZE_eq]

theorem ov_arith2 : 2721 - (ovN 2).pack.length = 1362 := by
  rw [ovN_pack_length]

theorem ov_arith3 : 1362 - (ovN 3).pack.length = 3 := by
  rw [ovN_pack_length]

theorem writeLoop_cons (n : DataNode) (ns : List DataNode) (buf : Bytes) (lower upper : Nat) :
    writeLoop (n :: ns) (buf, lower, upper) =
      if n.pack.length ≤ upper ∧ upper ≤ buf.length ∧ lower + 2 ≤ buf.length then
        writeLoop ns
          (writeRange (writeRange buf (upper - n.pack.length) n.pack) lower
            (u16le (upper - n.pack.length)),
           lower + 2, upper - n.pack.length)
      else none := rfl

/-- The final (overflowing) rebuild runs to completion: no guard fires
because no single step leaves the buffer, even though the slot array
(ending at `lower = 6`) has overrun the record region (starting at
`upper = 3`). -/
theorem ov_writeLoop :
    writeLoop [ovN 1, ovN 2, ovN 3] (List.replicate PAGE_BUF_SIZE 0, 0, PAGE_BUF_SIZE) =
      some (ovB3, 6, 3) := by
  rw [writeLoop_cons]
  rw [if_pos ⟨by rw [ovN_pack_length, PAGE_BUF_SIZE_eq]; omega,
      by rw [replicate_buf_length, PAGE_BUF_SIZE_eq],
      by rw [replicate_buf_length]; omega⟩]
  rw [ov_arith1]
  show writeLoop [ovN 2, ovN 3] (ovB1, 2, 2721) = some (ovB3, 6, 3)
  rw [writeLoop_cons]
  rw [if_pos ⟨by rw [ovN_pack_length]; omega,
      by rw [ovB1_length]; omega,
      by rw [ovB1_length]; omega⟩]
  rw [ov_arith2]
  show writeLoop [ovN 3] (ovB2, 4, 1362) = some (ovB3, 6, 3)
  rw [writeLoop_cons]
  rw [if_pos ⟨by rw [ovN_pack_length]; omega,
      by rw [ovB2_length]; omega,
      by rw [ovB2_length]; omega⟩]
  rw [ov_arith3]
  show writeLoop [] (ovB3, 6, 3) = some (ovB3, 6, 3)
  rfl

theorem ov_write3 :
    write_new_page 0 [ovN 1, ovN 2, ovN 3] =
      some (Page.from' 0 0 pageFlagAlive 6 3 ovB3) := by
  unfold write_new_page
  rw [ov_writeLoop]
  rfl

/-- The first six body bytes of the corrupt page: slot 0 (`2721`), the
low byte of slot 1 (`82`), the first byte of node 3's pack (`1`, which
has overwritten slot 1's high byte), and slot 2 (`3`). -/
theorem ov_take6 : ovB3.take 6 = [161, 10, 82, 1, 3, 0] := rfl

theorem ov_from3 :
    DataPage.from' (Page.from' 0 0 pageFlagAlive 6 3 ovB3) =
      some ⟨0, pageFlagAlive, 6, 3, [2721, 338, 3], ovB3⟩ := by
  unfold DataPage.from' get_node_offset
  show (if (6 : Nat) ≤ ovB3.length then some (toU16s (ovB3.take 6)) else none).map
      (fun offs => (⟨0, pageFlagAlive, 6, 3, offs, ovB3⟩ : DataPage)) =
    some ⟨0, pageFlagAlive, 6, 3, [2721, 338, 3], ovB3⟩
  rw [if_pos (by rw [ovB3_length]; omega)]
  rw [ov_take6]
  rfl

/-- Decoding the corrupted slot `338` lands two bytes inside node 3's
data region: the flags word reads `7 + 256 * 7 = 1799`, and
`NodeFlag::from_bits(1799)` is `None`, so the decoder panics. -/
theorem ov_read338 : read_node_from_offset ovB3 338 = none := by
  have hpt : ∀ j, j < 2 → ovB3.getD (338 + j) 0 = ([7, 7] : Bytes).getD j 0 := by
    intro j hj
    rw [ovB3_getD]
    rw [if_neg (by omega), if_pos ⟨by omega, by omega⟩]
    have hkl : (ovN 3).key.length = 1 := rfl
    have hdl : (ovN 3).data.length = 1340 := by
      show ovVal.length = 1340
      unfold ovVal
      rw [List.length_replicate]
    have hd := pack_getD_data (ovN 3) (316 + j) (by rw [hdl]; omega)
    rw [hkl] at hd
    have hidx : 338 + j - 3 = 18 + 1 + (316 + j) := by omega
    rw [hidx, hd]
    show ovVal.getD (316 + j) 0 = ([7, 7] : Bytes).getD j 0
    unfold ovVal
    rw [getD_replicate_val 1340 7 (316 + j) (by omega)]
    interval_cases j <;> rfl
  have h16 : readU16 ovB3 338 = some 1799 := by
    unfold readU16
    rw [readNBytes_of_pointwise ovB3 [7, 7] 338 2 (by rw [ovB3_length]; omega) rfl hpt]
    rfl
  unfold read_node_from_offset
  rw [h16]
  rfl

theorem option_some_bind {A B : Type} (a : A) (f : A → Option B) :
    (some a).bind f = f a := rfl

theorem option_map_some {A B : Type} (a : A) (f : A → B) :
    (some a).map f = some (f a) := rfl

theorem option_none_bind {A B : Type} (f : A → Option B) :
    (none : Option A).bind f = none := rfl

theorem option_map_none {A B : Type} (f : A → B) :
    (none : Option A).map f = none := rfl

theorem option_bind_none_pt {A B : Type} (x : Option A) (f : A → Option B)
    (h : ∀ a, f a = none) : x.bind f = none := by
  cases x
  · rfl
  · exact h _

theorem nodesOf_mk (pgno flags lower upper : Nat) (offs : List Nat) (data : Bytes) :
    DataPage.nodesOf ⟨pgno, flags, lower, upper, offs, data⟩ = decodeAll data offs := rfl

theorem putSeq_cons (p? : Option Page) (kv : Bytes × Bytes) (rest : List (Bytes × Bytes)) :
    putSeq p? (kv :: rest) =
      putSeq (p?.bind fun p => (DataPage.from' p).bind fun dp => dp.put 0 kv.1 kv.2) rest := rfl

theorem putSeq_nil (p? : Option Page) : putSeq p? [] = p? := rfl

theorem ov_decode : decodeAll ovB3 [2721, 338, 3] = none := by
  have h2 : decodeAll ovB3 [338, 3] = none := by
    unfold decodeAll
    rw [ov_read338, option_none_bind]
  unfold decodeAll
  rw [h2]
  exact option_bind_none_pt _ _ (fun n => rfl)

theorem ov_nodesOfPage : nodesOfPage (Page.from' 0 0 pageFlagAlive 6 3 ovB3) = none := by
  unfold nodesOfPage
  rw [ov_from3, option_some_bind, nodesOf_mk]
  exact ov_decode

theorem ov_upsert1 : upsertList [] [1] ovVal = [ovN 1] := rfl

theorem ov_upsert2 : upsertList [ovN 1] [2] ovVal = [ovN 1, ovN 2] := rfl

theorem ov_upsert3 : upsertList [ovN 1, ovN 2] [3] ovVal = [ovN 1, ovN 2, ovN 3] := rfl

theorem ov_fits0 : Fits ([] : List DataNode) := by
  unfold Fits
  rw [sumPack_nil, PAGE_BUF_SIZE_eq]
  show 2 * 0 + 0 ≤ 4080
  omega

theorem ov_fits1 : Fits [ovN 1] := by
  unfold Fits
  rw [sumPack_cons, sumPack_nil, ovN_pack_length, PAGE_BUF_SIZE_eq]
  show 2 * 1 + (1359 + 0) ≤ 4080
  omega

theorem ov_fits2 : Fits [ovN 1, ovN 2] := by
  unfold Fits
  rw [sumPack_cons, sumPack_cons, sumPack_nil]
  simp only [ovN_pack_length]
  rw [PAGE_BUF_SIZE_eq]
  show 2 * 2 + (1359 + (1359 + 0)) ≤ 4080
  omega

/-- C1 (counterexample): without any capacity restraint the claimed
invariant fails.  Three `put`s of 1340-byte values all "succeed" (`put`
has no overflow check and reports no error), but the third rebuild
overruns the body: the page comes back with `lower = 6 > upper = 3`,
node 3's record has overwritten the high byte of slot 1, and re-reading
the page — the first step of any later `put`, `get` or `split` — panics
while decoding slot `338` (`nodesOfPage` is `none`), so no sorted node
list exists at all. -/
theorem C1_counterexample :
    (buildPage overflowOps).map nodesOfPage = some none := by
  obtain ⟨p0, dp0, hw0, -, -, -, -, -, -, hfrom0, -, -, -, -, -, -, hnodes0⟩ :=
    write_new_page_spec 0 [] (by intro n hn; cases hn) ov_fits0
  obtain ⟨p1, dp1, hw1, -, -, -, -, -, -, hfrom1, -, -, -, -, -, -, hnodes1⟩ :=
    write_new_page_spec 0 [ovN 1]
      (by intro n hn; simp at hn; subst hn; exact ovN_wf 1) ov_fits1
  obtain ⟨p2, dp2, hw2, -, -, -, -, -, -, hfrom2, -, -, -, -, -, -, hnodes2⟩ :=
    write_new_page_spec 0 [ovN 1, ovN 2]
      (by intro n hn; simp at hn; rcases hn with rfl | rfl; exacts [ovN_wf 1, ovN_wf 2])
      ov_fits2
  have hstep1 : (some p0).bind
      (fun p => (DataPage.from' p).bind fun dp => dp.put 0 [1] ovVal) = some p1 := by
    show (DataPage.from' p0).bind (fun dp => dp.put 0 [1] ovVal) = some p1
    rw [hfrom0]
    show dp0.put 0 [1] ovVal = some p1
    unfold DataPage.put
    rw [hnodes0, option_some_bind]
    show write_new_page 0 (upsertList [] [1] ovVal) = some p1
    rw [ov_upsert1]
    exact hw1
  have hstep2 : (some p1).bind
      (fun p => (DataPage.from' p).bind fun dp => dp.put 0 [2] ovVal) = some p2 := by
    show (DataPage.from' p1).bind (fun dp => dp.put 0 [2] ovVal) = some p2
    rw [hfrom1]
    show dp1.put 0 [2] ovVal = some p2
    unfold DataPage.put
    rw [hnodes1, option_some_bind]
    show write_new_page 0 (upsertList [ovN 1] [2] ovVal) = some p2
    rw [ov_upsert2]
    exact hw2
  have hstep3 : (some p2).bind
      (fun p => (DataPage.from' p).bind fun dp => dp.put 0 [3] ovVal) =
      some (Page.from' 0 0 pageFlagAlive 6 3 ovB3) := by
    show (DataPage.from' p2).bind (fun dp => dp.put 0 [3] ovVal) = _
    rw [hfrom2]
    show dp2.put 0 [3] ovVal = _
    unfold DataPage.put
    rw [hnodes2, option_some_bind]
    show write_new_page 0 (upsertList [ovN 1, ovN 2] [3] ovVal) = _
    rw [ov_upsert3]
    exact ov_write3
  unfold buildPage overflowOps
  rw [hw0]
  rw [putSeq_cons]
  show (putSeq ((some p0).bind
      (fun p => (DataPage.from' p).bind fun dp => dp.put 0 [1] ovVal))
      [([2], ovVal), ([3], ovVal)]).map nodesOfPage = some none
  rw [hstep1, putSeq_cons]
  show (putSeq ((some p1).bind
      (fun p => (DataPage.from' p).bind fun dp => dp.put 0 [2] ovVal))
      [([3], ovVal)]).map nodesOfPage = some none
  rw [hstep2, putSeq_cons]
  show (putSeq ((some p2).bind
      (fun p => (DataPage.from' p).bind fun dp => dp.put 0 [3] ovVal))
      []).map nodesOfPage = some none
  rw [hstep3, putSeq_nil, option_map_some, ov_nodesOfPage]
